import Mathlib

/-!
Verification of the GitHub-backed document synchronization and cache engine of
the guide-flow-forge repository.  JavaScript strings are modelled as `List Char`
(written `JStr`), JavaScript objects and `Map`s as insertion-ordered association
lists, and asynchronous network results as `Option`/explicit parameters.
JavaScript's `\s` character class also contains some rarer Unicode space
characters; the model covers the ASCII whitespace characters plus NBSP and BOM,
which is every whitespace character that can appear in the inputs considered
here.  JavaScript numbers are IEEE doubles; the integer-valued `order` field is
modelled as `Int` (exact for the magnitudes that occur).
-/

set_option maxHeartbeats 1000000

/-- Model of a JavaScript string as a list of characters. -/
abbrev JStr := List Char

/-- The double-quote character. -/
def dquote : Char := Char.ofNat 34

/-- The single-quote character. -/
def squote : Char := Char.ofNat 39

/-- Whitespace test mirroring JavaScript's `\s` class and `String.trim`
(ASCII whitespace plus no-break space and BOM). -/
def isJsWs (c : Char) : Bool :=
  c = ' ' || c = '\t' || c = '\n' || c = '\r' ||
  c = Char.ofNat 11 || c = Char.ofNat 12 || c = Char.ofNat 160 || c = Char.ofNat 65279

/-- Drop trailing whitespace, the second half of `String.prototype.trim`. -/
def dropTrailingWs (s : JStr) : JStr :=
  (s.reverse.dropWhile isJsWs).reverse

/-- Model of `String.prototype.trim`. -/
def jsTrim (s : JStr) : JStr :=
  dropTrailingWs (s.dropWhile isJsWs)

/-- Quote test used by the frontmatter value cleanup `replace(/^["']|["']$/g, "")`. -/
def isQuote (c : Char) : Bool := c = dquote || c = squote

/-- Model of `value.replace(/^["']|["']$/g, "")`: remove one leading and one
trailing quote character. -/
def stripQuotes (s : JStr) : JStr :=
  let s1 := match s with
    | [] => []
    | c :: rest => if isQuote c then rest else c :: rest
  match s1.getLast? with
  | some d => if isQuote d then s1.dropLast else s1
  | none => s1

/-- Index of the first colon in a line, `trimmedLine.indexOf(":")`
(`none` models the JavaScript result `-1`). -/
def firstColonIdx : JStr → Option Nat
  | [] => none
  | c :: rest => if c = ':' then some 0 else (firstColonIdx rest).map (· + 1)

/-- Split a string at every occurrence of a separator character, modelling
`String.prototype.split` with a one-character separator.  The accumulator holds
the current segment in reverse. -/
def splitChar (sep : Char) : JStr → JStr → List JStr
  | [], acc => [acc.reverse]
  | c :: rest, acc =>
      if c = sep then acc.reverse :: splitChar sep rest []
      else splitChar sep rest (c :: acc)

/-- Join a list of strings with a separator character, modelling
`Array.prototype.join` with a one-character separator. -/
def joinChar (sep : Char) : List JStr → JStr
  | [] => []
  | [x] => x
  | x :: xs => x ++ sep :: joinChar sep xs

/-- Split on the regex `/\r?\n/` (used by the service's frontmatter parser):
a split point is a newline, optionally consuming a carriage return right
before it; a lone carriage return is an ordinary character. -/
def splitRNAux : JStr → JStr → List JStr
  | [], acc => [acc.reverse]
  | c :: rest, acc =>
      if c = '\n' then acc.reverse :: splitRNAux rest []
      else if c = '\r' && rest.head? = some '\n' then acc.reverse :: splitRNAux rest.tail []
      else splitRNAux rest (c :: acc)
termination_by s _ => s.length
decreasing_by
  all_goals simp
  omega

/-- Entry point for splitting on `/\r?\n/`. -/
def splitRN (s : JStr) : List JStr := splitRNAux s []

/-- Normalize line endings: `content.replace(/\r\n/g, "\n").replace(/\r/g, "\n")`. -/
def normalizeNl : JStr → JStr
  | [] => []
  | '\r' :: '\n' :: rest => '\n' :: normalizeNl rest
  | '\r' :: rest => '\n' :: normalizeNl rest
  | c :: rest => c :: normalizeNl rest

/-- Model of `String.prototype.startsWith` restricted to equality on a prefix. -/
def jsStartsWith (s pre : JStr) : Bool := s.take pre.length = pre

/-- Model of `String.prototype.endsWith`. -/
def jsEndsWith (s suf : JStr) : Bool :=
  if suf.length ≤ s.length then s.drop (s.length - suf.length) = suf else false

/-- Replace the first occurrence of `pat` with the empty string, modelling
`String.prototype.replace(pat, "")` with a string pattern. -/
def removeFirst (pat : JStr) : JStr → JStr
  | [] => []
  | c :: rest =>
      if (c :: rest).take pat.length = pat then (c :: rest).drop pat.length
      else c :: removeFirst pat rest

/-- Lookup in an insertion-ordered association list (JavaScript object /`Map`). -/
def assocLookup {β : Type} (k : JStr) : List (JStr × β) → Option β
  | [] => none
  | (k', v) :: rest => if k' = k then some v else assocLookup k rest

/-- Model of `obj[k] = v` / `Map.prototype.set`: replace the first binding of
`k` in place, or append a new binding at the end. -/
def assocSet {β : Type} : List (JStr × β) → JStr → β → List (JStr × β)
  | [], k, v => [(k, v)]
  | (k', v') :: rest, k, v =>
      if k' = k then (k, v) :: rest else (k', v') :: assocSet rest k v

/-- Model of `Map.prototype.delete`: remove the first binding of `k`. -/
def assocDelete {β : Type} (k : JStr) : List (JStr × β) → List (JStr × β)
  | [] => []
  | (k', v') :: rest => if k' = k then rest else (k', v') :: assocDelete k rest

/-- Modify the value bound to `k` in place (used to model pushing onto
`grouped[key]`). -/
def assocModify {β : Type} (k : JStr) (f : β → β) : List (JStr × β) → List (JStr × β)
  | [] => []
  | (k', v) :: rest => if k' = k then (k', f v) :: rest else (k', v) :: assocModify k f rest

/-- Stable insertion of an element into a list sorted by an integer key:
the element goes after every element whose key is less than or equal.
This is the per-element step of a stable ascending sort. -/
def insSorted {α : Type} (f : α → Int) (x : α) : List α → List α
  | [] => [x]
  | y :: ys => if f y ≤ f x then y :: insSorted f x ys else x :: y :: ys

/-- Stable ascending sort by an integer key, modelling
`Array.prototype.sort((a, b) => key(a) - key(b))` (stable per ES2019). -/
def sortByKey {α : Type} (f : α → Int) (l : List α) : List α :=
  l.foldl (fun acc x => insSorted f x acc) []

/-- The decimal digit character for a value below ten. -/
def digitChar : Nat → Char
  | 0 => '0'
  | 1 => '1'
  | 2 => '2'
  | 3 => '3'
  | 4 => '4'
  | 5 => '5'
  | 6 => '6'
  | 7 => '7'
  | 8 => '8'
  | 9 => '9'
  | _ => '*'

/-- Decimal digits of a natural number. -/
def natToStr (n : Nat) : JStr :=
  if _h : n < 10 then [digitChar n]
  else natToStr (n / 10) ++ [digitChar (n % 10)]
  decreasing_by exact Nat.div_lt_self (by omega) (by omega)

/-- Decimal representation of an integer, modelling JavaScript number-to-string
conversion for integer values. -/
def intToStr (n : Int) : JStr :=
  if n < 0 then '-' :: natToStr n.natAbs else natToStr n.natAbs

/-- Numeric value of a list of decimal digits. -/
def digitsVal (ds : JStr) : Nat :=
  ds.foldl (fun acc c => acc * 10 + (c.toNat - 48)) 0

/-- The longest digit prefix, as a number (`none` when there is no digit). -/
def digitsPre (s : JStr) : Option Nat :=
  let ds := s.takeWhile Char.isDigit
  if ds = [] then none else some (digitsVal ds)

/-- Model of `parseInt(s)` in base 10: skip leading whitespace, read an
optional sign and then the longest digit prefix; `none` models `NaN`. -/
def parseIntJs (s : JStr) : Option Int :=
  match s.dropWhile isJsWs with
  | [] => none
  | c :: rest =>
      if c = '-' then (digitsPre rest).map (fun m => -(m : Int))
      else if c = '+' then (digitsPre rest).map (fun m => (m : Int))
      else (digitsPre (c :: rest)).map (fun m => (m : Int))

/-- Model of `parseInt(value) || 0`: `NaN` falls back to `0` (and `0 || 0 = 0`). -/
def orZero : Option Int → Int
  | none => 0
  | some n => n

/-! ## Frontmatter values and records

A parsed frontmatter object is an insertion-ordered record whose values are
strings, string arrays, or (for `order`) integers. -/

/-- A value in a parsed frontmatter record. -/
inductive FMValue : Type
  | str (s : JStr)
  | arr (xs : List JStr)
  | int (n : Int)
deriving DecidableEq

/-- A parsed frontmatter record: the JavaScript `metadata` object. -/
abbrev FMRecord := List (JStr × FMValue)

/-- The string "title". -/
def sTitle : JStr := "title".data

/-- The string "description". -/
def sDescription : JStr := "description".data

/-- The string "order". -/
def sOrder : JStr := "order".data

/-- The string "icon". -/
def sIcon : JStr := "icon".data

/-- The string "tags". -/
def sTags : JStr := "tags".data

/-- The string "slug". -/
def sSlug : JStr := "slug".data

/-- The string "Untitled". -/
def sUntitled : JStr := "Untitled".data

/-- The string "---". -/
def sDashes : JStr := "---".data

/-- The string ".md". -/
def sMd : JStr := ".md".data

/-! ## The regex matcher of `GitHubDocsService.parseFrontmatter`

The service matches `/^---\s*\n([\s\S]*?)\n---\s*\n([\s\S]*)$/`.  The functions
below reproduce the backtracking behaviour of that regex: the leading `\s*` is
greedy, group 1 is lazy (shortest match first, growing one character at a
time), the inner `\s*` is greedy, and group 2 takes the rest. -/

/-- Length of the maximal whitespace prefix (the candidates for a greedy `\s*`). -/
def wsRunLen (s : JStr) : Nat := (s.takeWhile isJsWs).length

/-- Greedy `\s*\n`: find the largest index `k` not exceeding the whitespace run
such that the character at `k` is a newline; tried from `k` downward. -/
def findNlDown (t : JStr) : Nat → Option Nat
  | 0 => if t.head? = some '\n' then some 0 else none
  | k + 1 => if t.get? (k + 1) = some '\n' then some (k + 1) else findNlDown t k

/-- Match `\s*\n` greedily at the front of `t` (the text following `\n---`),
returning the remainder, which becomes group 2. -/
def matchCloseTail (t : JStr) : Option JStr :=
  (findNlDown t (wsRunLen t)).map (fun k => t.drop (k + 1))

/-- Lazy scan for the closing delimiter `\n---\s*\n`: at each position, if the
text starts with `\n---` and the greedy `\s*\n` succeeds after it, the match is
found; otherwise group 1 grows by one character. -/
def findClose : JStr → Option (JStr × JStr)
  | [] => none
  | c :: rest =>
      if c = '\n' && rest.take 3 = sDashes then
        match matchCloseTail (rest.drop 3) with
        | some g2 => some ([], g2)
        | none => (findClose rest).map (fun p => (c :: p.1, p.2))
      else (findClose rest).map (fun p => (c :: p.1, p.2))

/-- Backtracking over the opening `\s*\n` (greedy, longest whitespace prefix
first): `k` indexes the candidate newline ending the `\s*\n`. -/
def tryOpenNl (s : JStr) : Nat → Option (JStr × JStr)
  | 0 => if s.head? = some '\n' then findClose (s.drop 1) else none
  | k + 1 =>
      if s.get? (k + 1) = some '\n' then
        match findClose (s.drop (k + 2)) with
        | some r => some r
        | none => tryOpenNl s k
      else tryOpenNl s k

/-- Match the whole frontmatter regex against `content`, returning
`(group 1, group 2)` on success. -/
def fmMatch (content : JStr) : Option (JStr × JStr) :=
  if content.take 3 = sDashes then
    tryOpenNl (content.drop 3) (wsRunLen (content.drop 3))
  else none

/-! ## The key/value loop of `GitHubDocsService.parseFrontmatter` -/

/-- State of the line-oriented frontmatter loop: the metadata object built so
far, the current block-array key, whether a block array is open, and its items. -/
structure LoopState where
  md : FMRecord
  curKey : JStr
  inArr : Bool
  items : List JStr
deriving DecidableEq

/-- One iteration of the `for (const line of lines)` loop of
`GitHubDocsService.parseFrontmatter`. -/
def processLine (st : LoopState) (line : JStr) : LoopState :=
  let t := jsTrim line
  if t = [] then st
  else if st.inArr && t.take 2 = "- ".data then
    { st with items := st.items ++ [stripQuotes (jsTrim (t.drop 2))] }
  else
    let st :=
      if st.inArr then
        { st with md := assocSet st.md st.curKey (.arr st.items), inArr := false, items := [] }
      else st
    match firstColonIdx t with
    | some ci =>
        if ci > 0 then
          let key := jsTrim (t.take ci)
          let value := jsTrim (t.drop (ci + 1))
          if value = [] then { st with curKey := key, inArr := true, items := [] }
          else if value.head? = some '[' && value.getLast? = some ']' then
            let ac := (value.drop 1).dropLast
            if jsTrim ac ≠ [] then
              let items := (splitChar ',' ac []).map (fun it => stripQuotes (jsTrim it))
              { st with md := assocSet st.md key (.arr items) }
            else { st with md := assocSet st.md key (.arr []) }
          else
            let v := stripQuotes value
            if key = sOrder then
              { st with md := assocSet st.md key (.int (orZero (parseIntJs v))) }
            else { st with md := assocSet st.md key (.str v) }
        else st
    | none => st

/-- The whole key/value loop over the frontmatter lines, including the final
flush of a still-open block array. -/
def fmLoop (lines : List JStr) : FMRecord :=
  let fin := lines.foldl processLine ⟨[], [], false, []⟩
  if fin.inArr && fin.items ≠ [] then assocSet fin.md fin.curKey (.arr fin.items)
  else fin.md

/-- Model of `GitHubDocsService.parseFrontmatter`: on a regex match, parse the
frontmatter lines (split on `/\r?\n/`) and trim group 2; otherwise return the
default metadata `{title: "Untitled", slug: ""}` and the trimmed content. -/
def svcParseFrontmatter (content : JStr) : FMRecord × JStr :=
  match fmMatch content with
  | none => ([(sTitle, .str sUntitled), (sSlug, .str [])], jsTrim content)
  | some (fm, md) => (fmLoop (splitRN fm), jsTrim md)

/-! ## `GitHubDocsService.createFrontmatter` -/

/-- The document metadata fields that `createFrontmatter` serializes (the
spec's Document Metadata record). -/
structure Meta where
  title : JStr
  description : Option JStr
  order : Option Int
  icon : Option JStr
  tags : Option (List JStr)
deriving DecidableEq

/-- The line `title: "..."` etc.: a quoted string field line. -/
def strFieldLine (key : JStr) (v : JStr) : JStr :=
  key ++ ':' :: ' ' :: dquote :: v ++ [dquote]

/-- The line `order: N`. -/
def orderFieldLine (o : Int) : JStr := sOrder ++ ':' :: ' ' :: intToStr o

/-- Join with the two-character separator ", " (`Array.prototype.join(", ")`). -/
def joinCS : List JStr → JStr
  | [] => []
  | [x] => x
  | x :: xs => x ++ ',' :: ' ' :: joinCS xs

/-- The line `tags: ["a", "b"]`. -/
def tagsFieldLine (ts : List JStr) : JStr :=
  sTags ++ ':' :: ' ' :: '[' :: joinCS (ts.map (fun t => dquote :: t ++ [dquote])) ++ [']']

/-- The field lines pushed by `createFrontmatter`, in order, with each
JavaScript truthiness test mirrored (`description`/`icon` only when non-empty,
`tags` only when non-empty, `order` whenever present). -/
def fieldLines (m : Meta) : List JStr :=
  [strFieldLine sTitle m.title] ++
  (match m.description with
   | some d => if d ≠ [] then [strFieldLine sDescription d] else []
   | none => []) ++
  (match m.order with
   | some o => [orderFieldLine o]
   | none => []) ++
  (match m.icon with
   | some i => if i ≠ [] then [strFieldLine sIcon i] else []
   | none => []) ++
  (match m.tags with
   | some ts => if ts.length > 0 then [tagsFieldLine ts] else []
   | none => [])

/-- Model of `GitHubDocsService.createFrontmatter`:
`lines.join("\n") + "\n\n"` with `lines = ["---", ...fields, "---"]`. -/
def createFrontmatter (m : Meta) : JStr :=
  joinChar '\n' (sDashes :: fieldLines m ++ [sDashes]) ++ "\n\n".data

/-! ## `GitHubDocsCache.parseFrontmatter` (the timestamped-cache variant) -/

/-- The default metadata object `{title: "Untitled", order: 0}` of the cache's
parser. -/
def cacheDefaultMeta : FMRecord := [(sTitle, .str sUntitled), (sOrder, .int 0)]

/-- One iteration of the cache parser's key/value loop (no block arrays here;
quotes are stripped before the `order`/`tags` dispatch). -/
def cacheLoopLine (md : FMRecord) (line : JStr) : FMRecord :=
  let t := jsTrim line
  if t = [] then md
  else
    match firstColonIdx t with
    | some ci =>
        if ci > 0 then
          let key := jsTrim (t.take ci)
          let value := stripQuotes (jsTrim (t.drop (ci + 1)))
          if key = sOrder then assocSet md key (.int (orZero (parseIntJs value)))
          else if key = sTags then
            if value.head? = some '[' && value.getLast? = some ']' then
              let items := (splitChar ',' ((value.drop 1).dropLast) []).map
                (fun it => stripQuotes (jsTrim it))
              assocSet md key (.arr items)
            else assocSet md key (.arr [value])
          else assocSet md key (.str value)
        else md
    | none => md

/-- The cache parser's key/value loop; the metadata object starts as `{order: 0}`. -/
def cacheLoop (lines : List JStr) : FMRecord :=
  lines.foldl cacheLoopLine [(sOrder, .int 0)]

/-- Model of `GitHubDocsCache.parseFrontmatter`: normalize line endings, demand
an opening `---` line, scan for a closing line whose trim is `---`, skip blank
lines after it; on any failure return `{title: "Untitled", order: 0}` with the
trimmed (normalized) text as body. -/
def cacheParseFrontmatter (content : JStr) : FMRecord × JStr :=
  let n := normalizeNl content
  if n.take 4 = "---\n".data then
    let lines := splitChar '\n' n []
    match (lines.drop 1).findIdx? (fun l => decide (jsTrim l = sDashes)) with
    | none => (cacheDefaultMeta, jsTrim n)
    | some i =>
        let endIdx := i + 1
        let fmLines := (lines.take endIdx).drop 1
        let contentLines := (lines.drop (endIdx + 1)).dropWhile (fun l => decide (jsTrim l = []))
        (cacheLoop fmLines, jsTrim (joinChar '\n' contentLines))
  else (cacheDefaultMeta, jsTrim n)

/-! ## `GitHubDocsCache`: the timestamped document cache with `getDoc` -/

/-- A cached document of `GitHubDocsCache` (`CachedDoc`). -/
structure CachedDoc where
  content : JStr
  title : JStr
  description : Option JStr
  order : Int
  icon : Option JStr
  tags : Option (List JStr)
  slug : JStr
  lastFetched : Int
deriving DecidableEq

/-- The cache store of `GitHubDocsCache` (a plain object keyed by slug). -/
abbrev DocsCache := List (JStr × CachedDoc)

/-- The freshness window `CACHE_DURATION = 5 * 60 * 1000` milliseconds. -/
def cacheDuration : Int := 5 * 60 * 1000

/-- Model of `GitHubDocsCache.isExpired`. -/
def isExpired (now : Int) (d : CachedDoc) : Bool := now - d.lastFetched > cacheDuration

/-- The character class `\w` of the title-casing regexes. -/
def isWordChar (c : Char) : Bool := c.isAlphanum || c = '_'

/-- Auxiliary state (whether the previous character was a word character) for
the `\b\w` replacement. -/
def upperWordStartsAux : Bool → JStr → JStr
  | _, [] => []
  | prevW, c :: rest =>
      (if isWordChar c && !prevW then c.toUpper else c) :: upperWordStartsAux (isWordChar c) rest

/-- Model of `s.replace(/\b\w/g, l => l.toUpperCase())`. -/
def upperWordStarts (s : JStr) : JStr := upperWordStartsAux false s

/-- Model of replacing every hyphen with a space (the global hyphen regex). -/
def dashToSpace (s : JStr) : JStr := s.map (fun c => if c = '-' then ' ' else c)

/-- Title fallback of `GitHubDocsCache.getDoc`:
replace hyphens with spaces, then uppercase every word start (`\b\w`). -/
def cacheTitleFromSlug (slug : JStr) : JStr := upperWordStarts (dashToSpace slug)

/-- Build the `CachedDoc` that `getDoc` stores after a successful fetch. -/
def buildCachedDoc (slug : JStr) (now : Int) (raw : JStr) : CachedDoc :=
  let pr := cacheParseFrontmatter raw
  let md := pr.1
  { content := pr.2
    title := match assocLookup sTitle md with
      | some (.str t) => if t = [] then cacheTitleFromSlug slug else t
      | _ => cacheTitleFromSlug slug
    description := match assocLookup sDescription md with
      | some (.str d) => some d
      | _ => none
    order := match assocLookup sOrder md with
      | some (.int n) => n
      | _ => 0
    icon := match assocLookup sIcon md with
      | some (.str i) => some i
      | _ => none
    tags := match assocLookup sTags md with
      | some (.arr ts) => some ts
      | _ => none
    slug := slug
    lastFetched := now }

/-- Model of `GitHubDocsCache.getDoc`.  The network is modelled by `fetched`:
`some raw` when the GitHub fetch delivers `raw`, `none` when it fails or has
not delivered.  Returns the document given to the caller and the cache
afterwards.  A fresh cached entry is returned at once; otherwise the fetch is
attempted, and on fetch failure the stale entry (or `none`) is returned with
the cache unchanged. -/
def cacheGetDoc (cache : DocsCache) (slug : JStr) (now : Int) (fetched : Option JStr) :
    Option CachedDoc × DocsCache :=
  match assocLookup slug cache with
  | some cached =>
      if !isExpired now cached then (some cached, cache)
      else
        match fetched with
        | some raw =>
            let doc := buildCachedDoc slug now raw
            (some doc, assocSet cache slug doc)
        | none => (some cached, cache)
  | none =>
      match fetched with
      | some raw =>
          let doc := buildCachedDoc slug now raw
          (some doc, assocSet cache slug doc)
      | none => (none, cache)

/-! ## `GitHubDocsService`: documents, cache, refresh, lookup, polling -/

/-- A document of `GitHubDocsService` (`DocContent`): the spread frontmatter
object plus the fields that the service sets explicitly (`slug`, `content`,
`path`, `sha`), which shadow any homonymous frontmatter keys. -/
structure DocContent where
  meta : FMRecord
  slug : JStr
  content : JStr
  path : JStr
  sha : Option JStr
deriving DecidableEq

/-- The service's in-memory cache, `Map<string, DocContent>`. -/
abbrev SvcCache := List (JStr × DocContent)

/-- A Markdown file entry of the listed tree. -/
structure FileEntry where
  path : JStr
  sha : JStr
deriving DecidableEq

/-- The sort key `(a.order || 0)` of a service document; a frontmatter `order`
that is not a number (only reachable through degenerate frontmatter) is read
as 0. -/
def docOrder (d : DocContent) : Int :=
  match assocLookup sOrder d.meta with
  | some (.int n) => n
  | _ => 0

/-- Whether the title fixup of `getAllDocs` applies:
`!doc.title || doc.title === "Untitled"`. -/
def titleNeedsFix (md : FMRecord) : Bool :=
  match assocLookup sTitle md with
  | none => true
  | some (.str s) => s = [] || s = sUntitled
  | some _ => false

/-- Last segment of a slug, `slug.split("/").pop()`. -/
def lastSeg (slug : JStr) : JStr := (splitChar '/' slug []).getLast?.getD []

/-- The fallback title of `getAllDocs`:
title-case the last path segment, defaulting to "Untitled" when empty. -/
def svcTitleFromSlug (slug : JStr) : JStr :=
  let t := upperWordStarts (dashToSpace (lastSeg slug))
  if t = [] then sUntitled else t

/-- Process one file of the tree inside `getAllDocs`: fetch (the network is the
`fetched` argument; `none` models a failed fetch, whose error is caught and
turns the file's result into `null`), parse the frontmatter, derive the slug
from the path, build the document, and apply the title fixup. -/
def processFile (basePath : JStr) (f : FileEntry) (fetched : Option JStr) : Option DocContent :=
  match fetched with
  | none => none
  | some raw =>
      let pr := svcParseFrontmatter raw
      let slug := removeFirst sMd (removeFirst (basePath ++ ['/']) f.path)
      let doc : DocContent := ⟨pr.1, slug, pr.2, f.path, some f.sha⟩
      some (if titleNeedsFix doc.meta then
              { doc with meta := assocSet doc.meta sTitle (.str (svcTitleFromSlug slug)) }
            else doc)

/-- Rebuild the cache from a document list: `cache.clear()` followed by
`docs.forEach(doc => cache.set(doc.slug, doc))`. -/
def cacheOfDocs (docs : List DocContent) : SvcCache :=
  docs.foldl (fun c d => assocSet c d.slug d) []

/-- Model of `GitHubDocsService.getAllDocs`.  `tree` is the result of
`getFileTree` (`none` models a failed tree listing, which rethrows), `fetch`
gives each file's content fetch result.  Per-file failures are caught and
filtered out; on success the cache is cleared and repopulated and the
documents are returned sorted by `order`. -/
def getAllDocs (basePath : JStr) (cache : SvcCache) (tree : Option (List FileEntry))
    (fetch : FileEntry → Option JStr) : Option (List DocContent) × SvcCache :=
  match tree with
  | none => (none, cache)
  | some files =>
      let docs := files.filterMap (fun f => processFile basePath f (fetch f))
      (some (sortByKey docOrder docs), cacheOfDocs docs)

/-- Model of `GitHubDocsService.getDocBySlug`: serve from the cache when
present; on a miss, fetch-and-parse only when the service is not yet
initialized (`fetched` is the network result); otherwise return `null`. -/
def getDocBySlug (cache : SvcCache) (initialized : Bool) (slug : JStr)
    (fetched : Option JStr) : Option DocContent × SvcCache :=
  match assocLookup slug cache with
  | some d => (some d, cache)
  | none =>
      if initialized then (none, cache)
      else
        match fetched with
        | none => (none, cache)
        | some raw =>
            let pr := svcParseFrontmatter raw
            let fp := if jsEndsWith slug sMd then slug else slug ++ sMd
            let doc : DocContent := ⟨pr.1, slug, pr.2, fp, none⟩
            (some doc, assocSet cache slug doc)

/-- Model of the cache effect of `GitHubDocsService.createOrUpdateDoc`: when
the PUT succeeds the document is stored under its own slug; a failed save
throws before the cache is touched. -/
def createOrUpdateDoc (cache : SvcCache) (doc : DocContent) (saveOk : Bool) : SvcCache :=
  if saveOk then assocSet cache doc.slug doc else cache

/-- Model of the cache effect of `GitHubDocsService.deleteDoc`: on success the
entry under `path.replace(".md", "")` is removed. -/
def deleteDoc (cache : SvcCache) (path : JStr) (deleteOk : Bool) : SvcCache :=
  if deleteOk then assocDelete (removeFirst sMd path) cache else cache

/-! ## `GitHubDocsService.checkForUpdates` (the polling step) -/

/-- Outcome of one poll cycle: whether a refresh was triggered and the stored
last-observed head afterwards. -/
structure PollResult where
  refreshTriggered : Bool
  newLastSha : Option JStr
deriving DecidableEq

/-- Model of `GitHubDocsService.checkForUpdates`.  `headFetch` is the branch
head lookup (`none` models a non-ok response or a thrown fetch error), and
`refreshOk` tells whether the triggered `getAllDocs` succeeds; when it throws,
control jumps to the catch block and the head assignment is skipped. -/
def checkForUpdates (lastSha : Option JStr) (headFetch : Option JStr)
    (refreshOk : Bool) : PollResult :=
  match headFetch with
  | none => ⟨false, lastSha⟩
  | some cur =>
      match lastSha with
      | some prev =>
          if prev ≠ [] && prev ≠ cur then
            if refreshOk then ⟨true, some cur⟩ else ⟨true, some prev⟩
          else ⟨false, some cur⟩
      | none => ⟨false, some cur⟩

/-! ## Reachable cache states of the service -/

/-- One cache transition of `GitHubDocsService`: a full refresh (including the
ones triggered by polling), a lookup-or-fetch, a create/update, or a delete,
under an arbitrary environment. -/
inductive SvcStep : SvcCache → SvcCache → Prop
  | refresh (basePath : JStr) (tree : Option (List FileEntry))
      (fetch : FileEntry → Option JStr) (c : SvcCache) :
      SvcStep c (getAllDocs basePath c tree fetch).2
  | lookup (initialized : Bool) (slug : JStr) (fetched : Option JStr) (c : SvcCache) :
      SvcStep c (getDocBySlug c initialized slug fetched).2
  | create (doc : DocContent) (saveOk : Bool) (c : SvcCache) :
      SvcStep c (createOrUpdateDoc c doc saveOk)
  | erase (path : JStr) (deleteOk : Bool) (c : SvcCache) :
      SvcStep c (deleteDoc c path deleteOk)

/-- Cache states reachable from the initial empty cache by the service's
operations. -/
inductive ReachableCache : SvcCache → Prop
  | init : ReachableCache []
  | step {c c' : SvcCache} : ReachableCache c → SvcStep c c' → ReachableCache c'

/-- The key/slug coherence invariant: every cache key equals the slug of the
document stored under it. -/
def CacheInv (c : SvcCache) : Prop := ∀ p ∈ c, (p.2).slug = p.1

/-! ## `buildTreeFromDocs` (the navigation tree builder of the sidebar) -/

/-- The document fields the tree builder reads. -/
structure SDoc where
  title : JStr
  slug : JStr
  order : Option Int
  icon : Option JStr
deriving DecidableEq

/-- A flat sidebar item `{title, slug, order, icon}`. -/
structure ChildItem where
  title : JStr
  slug : JStr
  order : Int
  icon : Option JStr
deriving DecidableEq

/-- A top-level sidebar node; the builder nests children only one level deep. -/
structure TreeNode where
  title : JStr
  slug : JStr
  order : Int
  icon : Option JStr
  children : Option (List ChildItem)
deriving DecidableEq

/-- The item pushed into a group: `{title, slug, order: doc.order || 0, icon}`. -/
def mkItem (d : SDoc) : ChildItem := ⟨d.title, d.slug, d.order.getD 0, d.icon⟩

/-- The section filter of `buildTreeFromDocs` (slug-prefix classifier for the
"products" and "api" sections). -/
def sectionFilter (sect : JStr) (d : SDoc) : Bool :=
  if sect = "products".data then
    jsStartsWith d.slug "getting-started".data ||
    jsStartsWith d.slug "examples".data ||
    jsStartsWith d.slug "troubleshooting".data ||
    jsStartsWith d.slug "guides".data
  else if sect = "api".data then
    jsStartsWith d.slug "api-reference".data ||
    jsStartsWith d.slug "sdks".data ||
    jsStartsWith d.slug "webhooks".data
  else false

/-- The documents of the requested section, in encounter order. -/
def sectionDocs (docs : List SDoc) (sect : JStr) : List SDoc :=
  docs.filter (sectionFilter sect)

/-- The first path segment `doc.slug.split("/")[0]` (the group key). -/
def groupKey (d : SDoc) : JStr :=
  match splitChar '/' d.slug [] with
  | s :: _ => s
  | [] => []

/-- Whether `doc.slug.split("/").length === 1` (a top-level document). -/
def isTopLevel (d : SDoc) : Bool := (splitChar '/' d.slug []).length = 1

/-- One iteration of the grouping loop: ensure the group exists, then `unshift`
a top-level document or `push` a child. -/
def groupStep (acc : List (JStr × List ChildItem)) (d : SDoc) : List (JStr × List ChildItem) :=
  let key := groupKey d
  let acc1 := if (assocLookup key acc).isSome then acc else acc ++ [(key, [])]
  if isTopLevel d then assocModify key (fun l => mkItem d :: l) acc1
  else assocModify key (fun l => l ++ [mkItem d]) acc1

/-- Group the section documents by first path segment, preserving the object's
key insertion order. -/
def groupDocs (ds : List SDoc) : List (JStr × List ChildItem) := ds.foldl groupStep []

/-- The synthesized parent title:
`key.charAt(0).toUpperCase() + key.slice(1).replace(hyphen, " ")`. -/
def synthTitle (key : JStr) : JStr :=
  match key with
  | [] => []
  | c :: rest => c.toUpper :: dashToSpace rest

/-- Turn one group into a top-level node: the member whose slug equals the
group key becomes the parent; the others are its children sorted by `order`;
without a parent a node is synthesized from the first child. -/
def buildGroupNode (key : JStr) (items : List ChildItem) : Option TreeNode :=
  let parent := items.find? (fun it => decide (it.slug = key))
  let children := sortByKey ChildItem.order (items.filter (fun it => decide (it.slug ≠ key)))
  match parent with
  | some p =>
      some ⟨p.title, p.slug, p.order, p.icon, if children ≠ [] then some children else none⟩
  | none =>
      match children with
      | [] => none
      | fc :: _ => some ⟨synthTitle key, key, fc.order, none, some children⟩

/-- Model of `buildTreeFromDocs`: filter by section, group by first path
segment, build one node per group, and sort the top level by `order`. -/
def buildTreeFromDocs (docs : List SDoc) (sect : JStr) : List TreeNode :=
  let sd := sectionDocs docs sect
  if sd.length = 0 then []
  else sortByKey TreeNode.order ((groupDocs sd).filterMap (fun kv => buildGroupNode kv.1 kv.2))

/-- The children list of a node (`[]` when absent). -/
def nodeChildren (n : TreeNode) : List ChildItem := n.children.getD []

/-- Modelled from the spec: the title-casing that claim C9 asserts for
synthesized parents, "each hyphen-separated segment capitalized, joined by
spaces".  Stated only to compare with the builder's actual `synthTitle`. -/
def claimedTitleCase (key : JStr) : JStr :=
  joinChar ' ' ((splitChar '-' key []).map (fun seg =>
    match seg with
    | [] => []
    | c :: rest => c.toUpper :: rest))

/-! ## Derived definitions used in the statements and proofs -/

/-- A field line is safe for the matcher and the splitter: it contains no line
breaks and starts with a non-hyphen, non-whitespace character. -/
def LineOK (l : JStr) : Prop :=
  (∀ c ∈ l, c ≠ '\n' ∧ c ≠ '\r') ∧
  match l with
  | [] => False
  | c :: _ => c ≠ '-' ∧ isJsWs c = false

/-- A well-behaved serialized key: colon-free, trim-invariant, and headed by a
plain character. -/
def KeyOK (k : JStr) : Prop :=
  ':' ∉ k ∧ jsTrim k = k ∧ ∃ c cs, k = c :: cs ∧ isJsWs c = false ∧ c ≠ '-'

/-- One serialized frontmatter field: a quoted string field, the integer
`order` field, or the inline `tags` array. -/
inductive FieldSpec : Type
  | strF (key : JStr) (v : JStr)
  | intF (o : Int)
  | arrF (ts : List JStr)
deriving DecidableEq

/-- The serialized line of a field. -/
def specLine : FieldSpec → JStr
  | .strF k v => strFieldLine k v
  | .intF o => orderFieldLine o
  | .arrF ts => tagsFieldLine ts

/-- The metadata key a field parses back to. -/
def specKey : FieldSpec → JStr
  | .strF k _ => k
  | .intF _ => sOrder
  | .arrF _ => sTags

/-- The metadata value a field parses back to. -/
def specVal : FieldSpec → FMValue
  | .strF _ v => .str v
  | .intF o => .int o
  | .arrF ts => .arr ts

/-- Well-formedness of a serialized field: what the round trip needs. -/
def SpecOK : FieldSpec → Prop
  | .strF k v => KeyOK k ∧ k ≠ sOrder ∧ (∀ c ∈ k, c ≠ '\n' ∧ c ≠ '\r') ∧
      (∀ c ∈ v, c ≠ '\n' ∧ c ≠ '\r')
  | .intF _ => True
  | .arrF ts => ts ≠ [] ∧ ∀ t ∈ ts, ',' ∉ t ∧ ∀ c ∈ t, c ≠ '\n' ∧ c ≠ '\r'

/-- The optional description field (serialized only when truthy). -/
def optDescSpec (m : Meta) : List FieldSpec :=
  match m.description with
  | some d => if d ≠ [] then [.strF sDescription d] else []
  | none => []

/-- The optional order field (serialized whenever present). -/
def optOrderSpec (m : Meta) : List FieldSpec :=
  match m.order with
  | some o => [.intF o]
  | none => []

/-- The optional icon field (serialized only when truthy). -/
def optIconSpec (m : Meta) : List FieldSpec :=
  match m.icon with
  | some i => if i ≠ [] then [.strF sIcon i] else []
  | none => []

/-- The optional tags field (serialized only when nonempty). -/
def optTagsSpec (m : Meta) : List FieldSpec :=
  match m.tags with
  | some ts => if ts.length > 0 then [.arrF ts] else []
  | none => []

/-- All serialized fields of a metadata record, in serialization order. -/
def specsOf (m : Meta) : List FieldSpec :=
  .strF sTitle m.title :: (optDescSpec m ++ optOrderSpec m ++ optIconSpec m ++ optTagsSpec m)

/-- The key/value pair of a field. -/
def pairOf (f : FieldSpec) : JStr × FMValue := (specKey f, specVal f)

/-- The frontmatter record that parsing the serialization of `m` yields: each
serialized field contributes its key/value pair, in order. -/
def metaFields (m : Meta) : FMRecord := (specsOf m).map pairOf

/-- Characters allowed in a serialized string value: no line breaks. -/
def strOKb (s : JStr) : Bool := s.all (fun c => decide (c ≠ '\n' ∧ c ≠ '\r'))

/-- Characters allowed in a tag: no line breaks and no commas. -/
def tagOKb (t : JStr) : Bool := t.all (fun c => decide (c ≠ '\n' ∧ c ≠ '\r' ∧ c ≠ ','))

/-- A metadata record that forms a valid frontmatter block: its strings contain
no line breaks, its optional strings are nonempty when present (JavaScript
truthiness makes an empty string unserializable), its tags are nonempty and
comma-free. -/
def validMeta (m : Meta) : Bool :=
  strOKb m.title &&
  (match m.description with
   | some d => decide (d ≠ []) && strOKb d
   | none => true) &&
  (match m.icon with
   | some i => decide (i ≠ []) && strOKb i
   | none => true) &&
  (match m.tags with
   | some ts => decide (ts ≠ []) && ts.all tagOKb
   | none => true)

/-- The accumulated effect of the grouping loop on one group's item list. -/
def addItems (key : JStr) (ds : List SDoc) (l : List ChildItem) : List ChildItem :=
  ds.foldl (fun l d =>
    if groupKey d = key then
      (if isTopLevel d then mkItem d :: l else l ++ [mkItem d])
    else l) l

/-- The top-level documents of a group, as items. -/
def topsItems (key : JStr) (ds : List SDoc) : List ChildItem :=
  (ds.filter (fun d => decide (groupKey d = key) && isTopLevel d)).map mkItem

/-- The child documents of a group, as items, in encounter order. -/
def childItems (key : JStr) (ds : List SDoc) : List ChildItem :=
  (ds.filter (fun d => decide (groupKey d = key) && !isTopLevel d)).map mkItem

/-- The children of a group, in encounter order: the section documents whose
first path segment is the group key but whose slug is not the key itself. -/
def encChildren (docs : List SDoc) (sect key : JStr) : List ChildItem :=
  ((sectionDocs docs sect).filter
    (fun d => decide (groupKey d = key) && decide (d.slug ≠ key))).map mkItem

/-! ## Character and trim lemmas -/

/-- Digits are not JavaScript whitespace. -/
theorem ws_not_digit {c : Char} (h : isJsWs c = true) : c.isDigit = false := by
  simp only [isJsWs, Bool.or_eq_true, decide_eq_true_eq] at h
  rcases h with ((((((h | h) | h) | h) | h) | h) | h) | h <;> subst h <;> decide

/-- A digit is not whitespace. -/
theorem isJsWs_of_digit {c : Char} (h : c.isDigit = true) : isJsWs c = false := by
  cases hb : isJsWs c
  · rfl
  · rw [ws_not_digit hb] at h
    exact h.symm

/-- Dropping a leading-whitespace test stops at a non-whitespace head. -/
theorem dropWhile_eq_self_of_head {s : JStr} {c : Char} (hh : s.head? = some c)
    (hc : isJsWs c = false) : s.dropWhile isJsWs = s := by
  cases s with
  | nil => rfl
  | cons a t =>
      simp only [List.head?_cons, Option.some.injEq] at hh
      subst hh
      simp [List.dropWhile, hc]

/-- Trailing-whitespace removal keeps a list ending in a non-whitespace
character. -/
theorem dropTrailingWs_concat {l : JStr} {c : Char} (hc : isJsWs c = false) :
    dropTrailingWs (l ++ [c]) = l ++ [c] := by
  simp [dropTrailingWs, List.dropWhile, hc]

/-- Trailing-whitespace removal of the empty list. -/
theorem dropTrailingWs_nil : dropTrailingWs [] = [] := rfl

/-- Trim keeps a list that starts and ends with non-whitespace characters. -/
theorem jsTrim_cons_concat {c d : Char} {mid : JStr} (hc : isJsWs c = false)
    (hd : isJsWs d = false) : jsTrim (c :: mid ++ [d]) = c :: mid ++ [d] := by
  have h1 : (c :: mid ++ [d]).dropWhile isJsWs = c :: mid ++ [d] :=
    dropWhile_eq_self_of_head (by simp) hc
  have h2 : dropTrailingWs (c :: mid ++ [d]) = c :: mid ++ [d] := by
    simpa using dropTrailingWs_concat (l := c :: mid) (c := d) hd
  have h0 : jsTrim (c :: mid ++ [d]) = dropTrailingWs ((c :: mid ++ [d]).dropWhile isJsWs) := rfl
  rw [h0, h1, h2]

/-- Trim of a one-character non-whitespace list. -/
theorem jsTrim_single {c : Char} (hc : isJsWs c = false) : jsTrim [c] = [c] := by
  have h0 : jsTrim [c] = dropTrailingWs (([c] : JStr).dropWhile isJsWs) := rfl
  have h1 : ([c] : JStr).dropWhile isJsWs = [c] := dropWhile_eq_self_of_head (by simp) hc
  have h2 : dropTrailingWs [c] = [c] := by
    simpa using dropTrailingWs_concat (l := []) (c := c) hc
  rw [h0, h1, h2]

/-- Trim ignores a leading whitespace character. -/
theorem jsTrim_cons_ws {w : Char} {s : JStr} (h : isJsWs w = true) :
    jsTrim (w :: s) = jsTrim s := by
  simp [jsTrim, List.dropWhile, h]

/-- Trim keeps any nonempty list whose first and last characters are not
whitespace. -/
theorem jsTrim_eq_self {s : JStr} {c d : Char} (hh : s.head? = some c)
    (hc : isJsWs c = false) (hl : s.getLast? = some d) (hd : isJsWs d = false) :
    jsTrim s = s := by
  have h1 := dropWhile_eq_self_of_head hh hc
  have h2 : dropTrailingWs s = s := by
    have hne : s ≠ [] := by cases s <;> simp_all
    obtain ⟨l, rfl⟩ : ∃ l, s = l ++ [d] := by
      refine ⟨s.dropLast, ?_⟩
      have hgl : s.getLast hne = d := by
        rw [List.getLast?_eq_getLast s hne] at hl
        exact Option.some.inj hl
      rw [← hgl]
      exact (List.dropLast_append_getLast hne).symm
    exact dropTrailingWs_concat hd
  have h0 : jsTrim s = dropTrailingWs (s.dropWhile isJsWs) := rfl
  rw [h0, h1, h2]

/-- Quote stripping removes a wrapping pair of double quotes. -/
theorem stripQuotes_quoted (T : JStr) : stripQuotes (dquote :: T ++ [dquote]) = T := by
  have hq : isQuote dquote = true := by decide
  simp only [stripQuotes, List.cons_append, hq, if_true]
  rw [List.getLast?_concat]
  simp [hq]

/-- Quote stripping keeps a list whose edges are not quotes. -/
theorem stripQuotes_eq_self {s : JStr} (h1 : ∀ c, s.head? = some c → isQuote c = false)
    (h2 : ∀ c, s.getLast? = some c → isQuote c = false) : stripQuotes s = s := by
  cases s with
  | nil => rfl
  | cons a t =>
      have ha : isQuote a = false := h1 a (by simp)
      simp only [stripQuotes, ha, if_false]
      cases hl : (a :: t).getLast? with
      | none => simp at hl
      | some d =>
          have hd : isQuote d = false := h2 d hl
          simp [hl, hd]

/-! ## Split and join lemmas -/

/-- Splitting a separator-free text yields one segment. -/
theorem splitChar_clean {sep : Char} {s acc : JStr} (h : sep ∉ s) :
    splitChar sep s acc = [acc.reverse ++ s] := by
  induction s generalizing acc with
  | nil => simp [splitChar]
  | cons c rest ih =>
      have hc : c ≠ sep := fun hh => h (hh ▸ List.mem_cons_self c rest)
      simp only [splitChar, if_neg hc]
      rw [ih (fun hm => h (List.mem_cons_of_mem c hm))]
      simp

/-- Unfolding a split at a separator character. -/
theorem splitChar_cons_self {sep : Char} (rest acc : JStr) :
    splitChar sep (sep :: rest) acc = acc.reverse :: splitChar sep rest [] := by
  simp [splitChar]

/-- Unfolding a split at a non-separator character. -/
theorem splitChar_cons_ne {sep c : Char} (hc : c ≠ sep) (rest acc : JStr) :
    splitChar sep (c :: rest) acc = splitChar sep rest (c :: acc) := by
  simp [splitChar, hc]

/-- Splitting walks over a separator-free chunk followed by a separator. -/
theorem splitChar_chunk {sep : Char} {l rest acc : JStr} (h : sep ∉ l) :
    splitChar sep (l ++ sep :: rest) acc = (acc.reverse ++ l) :: splitChar sep rest [] := by
  induction l generalizing acc with
  | nil => simp [splitChar]
  | cons c t ih =>
      have hc : c ≠ sep := fun hh => h (hh ▸ List.mem_cons_self c t)
      have step : splitChar sep ((c :: t) ++ sep :: rest) acc
          = splitChar sep (t ++ sep :: rest) (c :: acc) := by
        simp [splitChar, if_neg hc]
      rw [step, ih (fun hm => h (List.mem_cons_of_mem c hm))]
      simp

/-- A split never yields the empty list of segments. -/
theorem splitChar_ne_nil {sep : Char} (s acc : JStr) : splitChar sep s acc ≠ [] := by
  induction s generalizing acc with
  | nil => simp [splitChar]
  | cons c rest ih =>
      simp only [splitChar]
      by_cases hc : c = sep
      · simp [hc]
      · simp only [if_neg hc]
        exact ih (c :: acc)

/-- Joining then splitting on a separator recovers separator-free segments. -/
theorem splitChar_joinChar {sep : Char} {ls : List JStr} (hne : ls ≠ [])
    (h : ∀ l ∈ ls, sep ∉ l) : splitChar sep (joinChar sep ls) [] = ls := by
  induction ls with
  | nil => exact absurd rfl hne
  | cons l ls ih =>
      cases ls with
      | nil => simpa [joinChar] using splitChar_clean (h l (by simp))
      | cons l2 ls2 =>
          have hj : joinChar sep (l :: l2 :: ls2) = l ++ sep :: joinChar sep (l2 :: ls2) := rfl
          rw [hj, splitChar_chunk (h l (by simp))]
          simp only [List.nil_append, List.reverse_nil]
          rw [ih (by simp) (fun x hx => h x (List.mem_cons_of_mem l hx))]

/-- Joining the split segments recovers the original text. -/
theorem joinChar_splitChar {sep : Char} (s acc : JStr) :
    joinChar sep (splitChar sep s acc) = acc.reverse ++ s := by
  induction s generalizing acc with
  | nil => simp [splitChar, joinChar]
  | cons c rest ih =>
      by_cases hc : c = sep
      · have hne : splitChar sep rest ([] : JStr) ≠ [] := splitChar_ne_nil rest []
        obtain ⟨x, xs, hsp⟩ := List.exists_cons_of_ne_nil hne
        subst hc
        rw [splitChar_cons_self, hsp]
        have hj : joinChar c (acc.reverse :: x :: xs) =
            acc.reverse ++ c :: joinChar c (x :: xs) := rfl
        rw [hj, ← hsp, ih]
        simp
      · simp only [splitChar, if_neg hc]
        rw [ih]
        simp

/-- Every split segment is separator-free. -/
theorem splitChar_parts_clean {sep : Char} {s acc : JStr} (hacc : sep ∉ acc) :
    ∀ part ∈ splitChar sep s acc, sep ∉ part := by
  induction s generalizing acc with
  | nil =>
      intro part hp
      simp only [splitChar, List.mem_singleton] at hp
      subst hp
      simpa using hacc
  | cons c rest ih =>
      intro part hp
      by_cases hc : c = sep
      · subst hc
        rw [splitChar_cons_self] at hp
        rcases List.mem_cons.mp hp with rfl | hp
        · simpa using hacc
        · exact ih (by simp) part hp
      · simp only [splitChar, if_neg hc] at hp
        refine ih ?_ part hp
        intro hm
        rcases List.mem_cons.mp hm with hm1 | hm2
        · exact hc hm1.symm
        · exact hacc hm2

/-- A text containing the separator splits into at least two segments. -/
theorem two_le_splitChar_length {sep : Char} {s : JStr} (acc : JStr) (h : sep ∈ s) :
    2 ≤ (splitChar sep s acc).length := by
  induction s generalizing acc with
  | nil => simp at h
  | cons c rest ih =>
      by_cases hc : c = sep
      · subst hc
        rw [splitChar_cons_self, List.length_cons]
        have := List.length_pos.mpr (@splitChar_ne_nil c rest [])
        omega
      · simp only [splitChar, if_neg hc]
        rcases List.mem_cons.mp h with hm1 | hm2
        · exact absurd hm1.symm hc
        · exact ih (c :: acc) hm2

/-- A one-segment split means the text was separator-free and equals the segment. -/
theorem splitChar_singleton {sep : Char} {s x : JStr}
    (h : splitChar sep s [] = [x]) : x = s ∧ sep ∉ s := by
  have hns : sep ∉ s := by
    intro hmem
    have h2 := two_le_splitChar_length ([] : JStr) hmem
    rw [h] at h2
    simp at h2
  have hcl := @splitChar_clean _ _ ([] : JStr) hns
  rw [h] at hcl
  simp only [List.reverse_nil, List.nil_append, List.cons.injEq, and_true] at hcl
  exact ⟨hcl, hns⟩

/-! ## Association list lemmas -/

/-- A successful lookup is a member. -/
theorem assocLookup_some_mem {β : Type} {k : JStr} {v : β} :
    ∀ {l : List (JStr × β)}, assocLookup k l = some v → (k, v) ∈ l := by
  intro l
  induction l with
  | nil => intro h; simp [assocLookup] at h
  | cons p rest ih =>
      intro h
      obtain ⟨k', v'⟩ := p
      by_cases hk : k' = k
      · subst hk
        have hv : v' = v := by simpa [assocLookup] using h
        subst hv
        exact List.mem_cons_self _ _
      · simp only [assocLookup, if_neg hk] at h
        exact List.mem_cons_of_mem _ (ih h)

/-- Setting a fresh key appends the binding. -/
theorem assocSet_fresh {β : Type} {k : JStr} {v : β} :
    ∀ {l : List (JStr × β)}, assocLookup k l = none → assocSet l k v = l ++ [(k, v)] := by
  intro l
  induction l with
  | nil => intro _; rfl
  | cons p rest ih =>
      intro h
      obtain ⟨k', v'⟩ := p
      by_cases hk : k' = k
      · subst hk; simp [assocLookup] at h
      · simp only [assocLookup, if_neg hk] at h
        simp [assocSet, if_neg hk, ih h]

/-- Looking up the key just set. -/
theorem assocLookup_assocSet_self {β : Type} (k : JStr) (v : β) :
    ∀ (l : List (JStr × β)), assocLookup k (assocSet l k v) = some v := by
  intro l
  induction l with
  | nil => simp [assocSet, assocLookup]
  | cons p rest ih =>
      obtain ⟨k', v'⟩ := p
      by_cases hk : k' = k
      · subst hk; simp [assocSet, assocLookup]
      · simp [assocSet, assocLookup, if_neg hk, ih]

/-- Lookup through a set at a different key. -/
theorem assocLookup_assocSet_ne {β : Type} {k k2 : JStr} (hne : k2 ≠ k) (v : β) :
    ∀ (l : List (JStr × β)), assocLookup k (assocSet l k2 v) = assocLookup k l := by
  intro l
  induction l with
  | nil => simp [assocSet, assocLookup, hne]
  | cons p rest ih =>
      obtain ⟨k', v'⟩ := p
      by_cases hk : k' = k2
      · subst hk
        simp [assocSet, assocLookup, if_neg hne]
      · simp [assocSet, assocLookup, if_neg hk, ih]

/-- Lookup through an in-place modification at the same key. -/
theorem assocLookup_assocModify_self {β : Type} (k : JStr) (f : β → β) :
    ∀ (l : List (JStr × β)), assocLookup k (assocModify k f l) = (assocLookup k l).map f := by
  intro l
  induction l with
  | nil => simp [assocModify, assocLookup]
  | cons p rest ih =>
      obtain ⟨k', v'⟩ := p
      by_cases hk : k' = k
      · subst hk; simp [assocModify, assocLookup]
      · simp [assocModify, assocLookup, if_neg hk, ih]

/-- Lookup through an in-place modification at a different key. -/
theorem assocLookup_assocModify_ne {β : Type} {k k2 : JStr} (hne : k2 ≠ k) (f : β → β) :
    ∀ (l : List (JStr × β)), assocLookup k (assocModify k2 f l) = assocLookup k l := by
  intro l
  induction l with
  | nil => simp [assocModify, assocLookup]
  | cons p rest ih =>
      obtain ⟨k', v'⟩ := p
      by_cases hk : k' = k2
      · subst hk
        simp [assocModify, assocLookup, if_neg hne, ih]
      · simp [assocModify, assocLookup, if_neg hk, ih]

/-- Lookup distributes over append, preferring the left list. -/
theorem assocLookup_append {β : Type} (k : JStr) (l1 l2 : List (JStr × β)) :
    assocLookup k (l1 ++ l2) =
      match assocLookup k l1 with
      | some v => some v
      | none => assocLookup k l2 := by
  induction l1 with
  | nil => simp [assocLookup]
  | cons p rest ih =>
      obtain ⟨k', v'⟩ := p
      by_cases hk : k' = k
      · subst hk; simp [assocLookup]
      · simp [assocLookup, if_neg hk, ih]

/-! ## Stable sort lemmas -/

/-- Insertion produces a permutation. -/
theorem insSorted_perm {α : Type} (f : α → Int) (x : α) :
    ∀ (l : List α), (insSorted f x l).Perm (x :: l) := by
  intro l
  induction l with
  | nil => simp [insSorted]
  | cons y ys ih =>
      by_cases hle : f y ≤ f x
      · simp only [insSorted, if_pos hle]
        exact (List.Perm.cons y ih).trans (List.Perm.swap x y ys)
      · simp [insSorted, if_neg hle]

/-- Membership in an insertion. -/
theorem mem_insSorted {α : Type} {f : α → Int} {x z : α} {l : List α} :
    z ∈ insSorted f x l ↔ z = x ∨ z ∈ l := by
  rw [(insSorted_perm f x l).mem_iff]
  simp

/-- The sort is a permutation of its input. -/
theorem sortByKey_perm {α : Type} (f : α → Int) (l : List α) : (sortByKey f l).Perm l := by
  suffices h : ∀ (l acc : List α), (l.foldl (fun acc x => insSorted f x acc) acc).Perm (acc ++ l) by
    simpa using h l []
  intro l
  induction l with
  | nil => simp
  | cons x xs ih =>
      intro acc
      have h1 := ih (insSorted f x acc)
      refine h1.trans ?_
      have h2 : (insSorted f x acc ++ xs).Perm ((x :: acc) ++ xs) :=
        (insSorted_perm f x acc).append_right xs
      refine h2.trans ?_
      simp only [List.cons_append]
      exact (List.perm_middle).symm

/-- Insertion preserves sortedness by the key. -/
theorem insSorted_sorted {α : Type} {f : α → Int} {x : α} :
    ∀ {l : List α}, l.Pairwise (fun a b => f a ≤ f b) →
      (insSorted f x l).Pairwise (fun a b => f a ≤ f b) := by
  intro l
  induction l with
  | nil => intro _; simp [insSorted]
  | cons y ys ih =>
      intro hp
      rw [List.pairwise_cons] at hp
      obtain ⟨hy, hys⟩ := hp
      by_cases hle : f y ≤ f x
      · simp only [insSorted, if_pos hle]
        rw [List.pairwise_cons]
        refine ⟨?_, ih hys⟩
        intro z hz
        rcases mem_insSorted.mp hz with rfl | hzmem
        · exact hle
        · exact hy z hzmem
      · simp only [insSorted, if_neg hle]
        rw [List.pairwise_cons]
        refine ⟨?_, List.Pairwise.cons hy hys⟩
        intro z hz
        rcases List.mem_cons.mp hz with rfl | hzmem
        · omega
        · exact le_trans (by omega) (hy z hzmem)

/-- The sort output is sorted by the key. -/
theorem sortByKey_sorted {α : Type} (f : α → Int) (l : List α) :
    (sortByKey f l).Pairwise (fun a b => f a ≤ f b) := by
  suffices h : ∀ (l acc : List α), acc.Pairwise (fun a b => f a ≤ f b) →
      (l.foldl (fun acc x => insSorted f x acc) acc).Pairwise (fun a b => f a ≤ f b) by
    exact h l [] (by simp)
  intro l
  induction l with
  | nil => intro acc h; simpa using h
  | cons x xs ih =>
      intro acc h
      exact ih (insSorted f x acc) (insSorted_sorted h)

/-- Stability of one insertion: on a sorted list, the elements with any fixed
key value keep their order, the new element going last among its ties. -/
theorem insSorted_filter {α : Type} {f : α → Int} {x : α} {v : Int} :
    ∀ {l : List α}, l.Pairwise (fun a b => f a ≤ f b) →
      (insSorted f x l).filter (fun a => decide (f a = v)) =
        if f x = v then l.filter (fun a => decide (f a = v)) ++ [x]
        else l.filter (fun a => decide (f a = v)) := by
  intro l
  induction l with
  | nil => intro _; by_cases hv : f x = v <;> simp [insSorted, hv]
  | cons y ys ih =>
      intro hp
      rw [List.pairwise_cons] at hp
      obtain ⟨hy, hys⟩ := hp
      by_cases hle : f y ≤ f x
      · simp only [insSorted, if_pos hle, List.filter_cons]
        rw [ih hys]
        by_cases hyv : f y = v <;> by_cases hxv : f x = v <;> simp [hyv, hxv]
      · simp only [insSorted, if_neg hle, List.filter_cons]
        by_cases hxv : f x = v
        · subst hxv
          have hempty : (y :: ys).filter (fun a => decide (f a = f x)) = [] := by
            rw [List.filter_eq_nil_iff]
            intro a ha
            rcases List.mem_cons.mp ha with rfl | hmem
            · simp; omega
            · have := hy a hmem
              simp; omega
          rw [List.filter_cons] at hempty
          by_cases hyv : f y = f x
          · simp [hyv] at hempty
          · simp only [hyv, decide_False, if_false, Bool.false_eq_true] at hempty ⊢
            simp only [decide_True, if_true, hempty]
            simp [hyv, hempty]
        · simp [hxv]

/-- Stability of the sort: for every key value, the elements with that key
appear in their input (encounter) order. -/
theorem sortByKey_filter {α : Type} (f : α → Int) (l : List α) (v : Int) :
    (sortByKey f l).filter (fun a => decide (f a = v)) =
      l.filter (fun a => decide (f a = v)) := by
  suffices h : ∀ (l acc : List α), acc.Pairwise (fun a b => f a ≤ f b) →
      (l.foldl (fun acc x => insSorted f x acc) acc).filter (fun a => decide (f a = v)) =
        acc.filter (fun a => decide (f a = v)) ++ l.filter (fun a => decide (f a = v)) by
    simpa using h l [] (by simp)
  intro l
  induction l with
  | nil => intro acc _; simp
  | cons x xs ih =>
      intro acc hacc
      have h1 := ih (insSorted f x acc) (insSorted_sorted hacc)
      rw [List.foldl_cons, h1, insSorted_filter hacc, List.filter_cons]
      by_cases hxv : f x = v <;> simp [hxv]

/-- The sort preserves length. -/
theorem sortByKey_length {α : Type} (f : α → Int) (l : List α) :
    (sortByKey f l).length = l.length :=
  (sortByKey_perm f l).length_eq

/-- Membership is preserved by the sort. -/
theorem mem_sortByKey {α : Type} {f : α → Int} {x : α} {l : List α} :
    x ∈ sortByKey f l ↔ x ∈ l :=
  (sortByKey_perm f l).mem_iff

/-! ## Decimal printing and parsing lemmas -/

/-- Every character of the printed natural number is a digit. -/
theorem natToStr_digits (n : Nat) : ∀ c ∈ natToStr n, c.isDigit = true := by
  induction n using Nat.strong_induction_on with
  | _ n ih =>
      rw [natToStr]
      by_cases h : n < 10
      · simp only [dif_pos h]
        intro c hc
        interval_cases n <;> simp_all [digitChar]
      · simp only [dif_neg h]
        intro c hc
        rcases List.mem_append.mp hc with h1 | h2
        · exact ih (n / 10) (Nat.div_lt_self (by omega) (by omega)) c h1
        · have : c = digitChar (n % 10) := by simpa using h2
          subst this
          have : n % 10 < 10 := Nat.mod_lt n (by omega)
          interval_cases hm : n % 10 <;> simp [digitChar]

/-- The printed natural number is nonempty. -/
theorem natToStr_ne_nil (n : Nat) : natToStr n ≠ [] := by
  rw [natToStr]
  by_cases h : n < 10 <;> simp [h]

/-- The digit value identity below ten. -/
theorem digitChar_val {d : Nat} (h : d < 10) : (digitChar d).toNat - 48 = d := by
  interval_cases d <;> decide

/-- Appending a digit multiplies the value by ten. -/
theorem digitsVal_append (l : JStr) (c : Char) :
    digitsVal (l ++ [c]) = 10 * digitsVal l + (c.toNat - 48) := by
  simp only [digitsVal, List.foldl_append, List.foldl_cons, List.foldl_nil]
  omega

/-- The decimal printer and the digit evaluator are inverse. -/
theorem digitsVal_natToStr (n : Nat) : digitsVal (natToStr n) = n := by
  induction n using Nat.strong_induction_on with
  | _ n ih =>
      rw [natToStr]
      by_cases h : n < 10
      · simp only [dif_pos h, digitsVal, List.foldl_cons, List.foldl_nil]
        have := digitChar_val h
        omega
      · simp only [dif_neg h]
        rw [digitsVal_append, ih (n / 10) (Nat.div_lt_self (by omega) (by omega)),
          digitChar_val (Nat.mod_lt n (by omega))]
        omega

/-- Parsing the printed integer recovers the integer (`parseInt` after
number-to-string). -/
theorem parseIntJs_intToStr (n : Int) : parseIntJs (intToStr n) = some n := by
  have hdig : ∀ m : Nat, digitsPre (natToStr m) = some m := by
    intro m
    have h1 : (natToStr m).takeWhile Char.isDigit = natToStr m := by
      rw [List.takeWhile_eq_self_iff]
      exact fun c hc => natToStr_digits m c hc
    simp only [digitsPre, h1, if_neg (natToStr_ne_nil m), digitsVal_natToStr]
  have hheadws : ∀ m : Nat, (natToStr m).dropWhile isJsWs = natToStr m := by
    intro m
    cases hh : natToStr m with
    | nil => exact absurd hh (natToStr_ne_nil m)
    | cons c t =>
        have hcd : c.isDigit = true := natToStr_digits m c (by simp [hh])
        exact dropWhile_eq_self_of_head (s := c :: t) (c := c) (by simp) (isJsWs_of_digit hcd)
  by_cases h : n < 0
  · have hstep : intToStr n = '-' :: natToStr n.natAbs := by simp [intToStr, h]
    have hminus : isJsWs '-' = false := by decide
    have hdw : ('-' :: natToStr n.natAbs).dropWhile isJsWs = '-' :: natToStr n.natAbs :=
      dropWhile_eq_self_of_head (by simp) hminus
    rw [hstep]
    simp only [parseIntJs, hdw, hdig, if_pos rfl]
    show some (-(n.natAbs : Int)) = some n
    rw [Option.some.injEq]
    omega
  · have hstep : intToStr n = natToStr n.natAbs := by simp [intToStr, h]
    have hne : natToStr n.natAbs ≠ [] := natToStr_ne_nil n.natAbs
    obtain ⟨c, t, hct⟩ := List.exists_cons_of_ne_nil hne
    have hcdig : c.isDigit = true := natToStr_digits n.natAbs c (by simp [hct])
    have hcm : ¬(c = '-') := by intro hh; subst hh; simp at hcdig
    have hcp : ¬(c = '+') := by intro hh; subst hh; simp at hcdig
    rw [hstep, hct]
    simp only [parseIntJs,
      dropWhile_eq_self_of_head (s := c :: t) (c := c) (by simp) (isJsWs_of_digit hcdig),
      if_neg hcm, if_neg hcp]
    rw [← hct, hdig]
    show some ((n.natAbs : Int)) = some n
    rw [Option.some.injEq]
    omega

/-! ## Matching the frontmatter regex on serialized input -/


/-- The closing scan skips a non-newline character. -/
theorem findClose_cons_not_nl {c : Char} {s : JStr} (hc : c ≠ '\n') :
    findClose (c :: s) = (findClose s).map (fun p => (c :: p.1, p.2)) := by
  simp [findClose, hc]

/-- The closing scan skips a newline not followed by three hyphens. -/
theorem findClose_cons_nl_nodash {s : JStr} (hd : s.take 3 ≠ sDashes) :
    findClose ('\n' :: s) = (findClose s).map (fun p => ('\n' :: p.1, p.2)) := by
  simp [findClose, hd]

/-- The closing scan succeeds at a full closing delimiter. -/
theorem findClose_cons_nl_dash_ok {s : JStr} {g2 : JStr} (ht : s.take 3 = sDashes)
    (hm : matchCloseTail (s.drop 3) = some g2) :
    findClose ('\n' :: s) = some ([], g2) := by
  simp [findClose, ht, hm]

/-- The closing scan distributes over a line-break-free prefix. -/
theorem findClose_append_clean {l : JStr} (h : ∀ c ∈ l, c ≠ '\n') (rest : JStr) :
    findClose (l ++ rest) = (findClose rest).map (fun p => (l ++ p.1, p.2)) := by
  induction l with
  | nil =>
      rw [List.nil_append]
      cases findClose rest <;> simp
  | cons c t ih =>
      have hc : c ≠ '\n' := (h c (by simp))
      rw [List.cons_append, findClose_cons_not_nl hc,
        ih (fun d hd => h d (List.mem_cons_of_mem c hd))]
      cases findClose rest <;> simp

/-- Dropping a prefix never lengthens a list. -/
theorem length_dropWhile_le (p : Char → Bool) (l : JStr) :
    (l.dropWhile p).length ≤ l.length := by
  induction l with
  | nil => simp
  | cons c t ih =>
      by_cases h : p c <;> simp [List.dropWhile, h] <;> omega

/-- Trimming never lengthens a string. -/
theorem jsTrim_length_le (s : JStr) : (jsTrim s).length ≤ s.length := by
  simp only [jsTrim, dropTrailingWs]
  calc ((s.dropWhile isJsWs).reverse.dropWhile isJsWs).reverse.length
      = ((s.dropWhile isJsWs).reverse.dropWhile isJsWs).length := by
        rw [List.length_reverse]
    _ ≤ (s.dropWhile isJsWs).reverse.length := length_dropWhile_le _ _
    _ = (s.dropWhile isJsWs).length := by rw [List.length_reverse]
    _ ≤ s.length := length_dropWhile_le _ _

/-- Trimmed text is empty or starts with a non-whitespace character. -/
theorem trimmed_head {body : JStr} {c : Char} {t : JStr} (hb : jsTrim body = body)
    (hct : body = c :: t) : isJsWs c = false := by
  subst hct
  by_contra hws
  rw [Bool.not_eq_false] at hws
  have h1 : jsTrim (c :: t) = jsTrim t := jsTrim_cons_ws hws
  have h2 := jsTrim_length_le t
  rw [hb] at h1
  have h3 : (c :: t).length = (jsTrim t).length := by rw [h1]
  simp only [List.length_cons] at h3
  omega

/-- A nonempty whitespace-dropped remainder of a list ending in `c` still ends
in `c`. -/
theorem getLast?_dropWhile_concat (p : Char → Bool) (l : JStr) (c : Char) :
    (l ++ [c]).dropWhile p ≠ [] → ((l ++ [c]).dropWhile p).getLast? = some c := by
  induction l with
  | nil =>
      intro h
      by_cases hp : p c
      · simp [List.dropWhile, hp] at h
      · simp [List.dropWhile, hp]
  | cons a t ih =>
      intro h
      by_cases hp : p a
      · rw [List.cons_append, List.dropWhile_cons_of_pos hp] at h ⊢
        exact ih h
      · rw [List.cons_append, List.dropWhile_cons_of_neg hp]
        rw [show a :: (t ++ [c]) = (a :: t) ++ [c] from rfl]
        exact List.getLast?_concat _

/-- Trimmed text is empty or ends with a non-whitespace character. -/
theorem trimmed_last {body : JStr} {c : Char} (hb : jsTrim body = body)
    (hct : body.getLast? = some c) : isJsWs c = false := by
  by_contra hws
  rw [Bool.not_eq_false] at hws
  have hne : body ≠ [] := by intro hh; rw [hh] at hct; simp at hct
  obtain ⟨l, rfl⟩ : ∃ l, body = l ++ [c] := by
    refine ⟨body.dropLast, ?_⟩
    have hgl : body.getLast hne = c := by
      rw [List.getLast?_eq_getLast body hne] at hct
      exact Option.some.inj hct
    rw [← hgl]
    exact (List.dropLast_append_getLast hne).symm
  by_cases hue : (l ++ [c]).dropWhile isJsWs = []
  · have : jsTrim (l ++ [c]) = [] := by
      simp [jsTrim, hue, dropTrailingWs]
    rw [hb] at this
    simp at this
  · obtain ⟨m, hm⟩ : ∃ m, (l ++ [c]).dropWhile isJsWs = m ++ [c] := by
      have hlast := getLast?_dropWhile_concat isJsWs l c hue
      refine ⟨((l ++ [c]).dropWhile isJsWs).dropLast, ?_⟩
      have hgl : ((l ++ [c]).dropWhile isJsWs).getLast hue = c := by
        rw [List.getLast?_eq_getLast _ hue] at hlast
        exact Option.some.inj hlast
      have hdec := (List.dropLast_append_getLast hue).symm
      rw [hgl] at hdec
      exact hdec
    have hlen : (jsTrim (l ++ [c])).length ≤ m.length := by
      have hstep : jsTrim (l ++ [c]) = dropTrailingWs (m ++ [c]) := by
        rw [jsTrim, hm]
      rw [hstep]
      simp only [dropTrailingWs, List.reverse_append, List.reverse_singleton,
        List.singleton_append, List.dropWhile_cons_of_pos hws]
      rw [List.length_reverse]
      calc (m.reverse.dropWhile isJsWs).length ≤ m.reverse.length :=
            length_dropWhile_le _ _
        _ = m.length := List.length_reverse m
    have hmlen : m.length + 1 ≤ l.length + 1 := by
      have := congrArg List.length hm
      simp only [List.length_append, List.length_cons, List.length_nil] at this
      have h2 := length_dropWhile_le isJsWs (l ++ [c])
      simp only [List.length_append, List.length_cons, List.length_nil] at h2
      omega
    rw [hb] at hlen
    simp only [List.length_append, List.length_cons, List.length_nil] at hlen
    omega

/-- The greedy `\s*\n` after the closing hyphens consumes exactly the two
newlines that the serializer wrote, leaving a trimmed body as group 2. -/
theorem matchCloseTail_body {body : JStr} (hb : jsTrim body = body) :
    matchCloseTail ('\n' :: '\n' :: body) = some body := by
  have hnl : isJsWs '\n' = true := by decide
  have hws2 : wsRunLen ('\n' :: '\n' :: body) = 2 := by
    cases hcb : body with
    | nil => simp [wsRunLen, List.takeWhile, hnl]
    | cons c t =>
        have hc : isJsWs c = false := trimmed_head hb hcb
        simp [wsRunLen, List.takeWhile, hnl, hc]
  have hget1 : ('\n' :: '\n' :: body).get? 1 = some '\n' := rfl
  have hget2 : ('\n' :: '\n' :: body).get? 2 = body.get? 0 := rfl
  rw [matchCloseTail, hws2]
  cases hcb : body with
  | nil =>
      simp [findNlDown, hget2, hcb]
  | cons c t =>
      have hc : isJsWs c = false := trimmed_head hb hcb
      have hcnl : c ≠ '\n' := by
        intro hh; subst hh; rw [hnl] at hc; simp at hc
      rw [← hcb]
      have hg2 : ('\n' :: '\n' :: body).get? 2 ≠ some '\n' := by
        rw [hget2, hcb]
        simp [hcnl]
      simp only [findNlDown, if_neg hg2, hget1, if_pos rfl, Option.map_some]
      rfl

/-- Three hyphens are the prefix of the closing delimiter text. -/
theorem take_three_dashes (r : JStr) : (sDashes ++ r).take 3 = sDashes := by
  have h : sDashes.length = 3 := rfl
  rw [← h]
  exact List.take_left sDashes r

/-- The closing scan resolves the serialized tail to the trimmed body. -/
theorem findClose_closing {body : JStr} (hb : jsTrim body = body) :
    findClose ('\n' :: (sDashes ++ '\n' :: '\n' :: body)) = some ([], body) := by
  refine findClose_cons_nl_dash_ok (take_three_dashes _) ?_
  have hdrop : (sDashes ++ '\n' :: '\n' :: body).drop 3 = '\n' :: '\n' :: body := by
    have h : sDashes.length = 3 := rfl
    rw [← h]
    exact List.drop_left sDashes _
  rw [hdrop]
  exact matchCloseTail_body hb

/-- The closing scan walks over the serialized field lines and stops exactly at
the closing delimiter, returning the joined field lines as group 1 and the
trimmed body as group 2. -/
theorem findClose_fields {fls : List JStr} {body : JStr} (hne : fls ≠ [])
    (hlines : ∀ l ∈ fls, LineOK l) (hb : jsTrim body = body) :
    findClose (joinChar '\n' fls ++ '\n' :: (sDashes ++ '\n' :: '\n' :: body)) =
      some (joinChar '\n' fls, body) := by
  induction fls with
  | nil => exact absurd rfl hne
  | cons l ls ih =>
      have hlOK := hlines l (by simp)
      have hlnl : ∀ c ∈ l, c ≠ '\n' := fun c hc => (hlOK.1 c hc).1
      cases ls with
      | nil =>
          have hj : joinChar '\n' [l] = l := rfl
          rw [hj, findClose_append_clean hlnl, findClose_closing hb]
          simp
      | cons l2 ls2 =>
          have hj : joinChar '\n' (l :: l2 :: ls2) = l ++ '\n' :: joinChar '\n' (l2 :: ls2) :=
            rfl
          rw [hj]
          have hl2OK := hlines l2 (by simp)
          obtain ⟨c2, cs2, hc2, hc2dash⟩ : ∃ c2 cs2, l2 = c2 :: cs2 ∧ c2 ≠ '-' := by
            rcases hl2 : l2 with _ | ⟨c2, cs2⟩
            · rw [hl2] at hl2OK
              exact absurd hl2OK.2 id
            · rw [hl2] at hl2OK
              exact ⟨c2, cs2, rfl, hl2OK.2.1⟩
          obtain ⟨rest2, hr2⟩ : ∃ rest2, joinChar '\n' (l2 :: ls2) = c2 :: rest2 := by
            cases ls2 with
            | nil => exact ⟨cs2, by simp [joinChar, hc2]⟩
            | cons l3 ls3 =>
                refine ⟨cs2 ++ '\n' :: joinChar '\n' (l3 :: ls3), ?_⟩
                rw [show joinChar '\n' (l2 :: l3 :: ls3) =
                  l2 ++ '\n' :: joinChar '\n' (l3 :: ls3) from rfl, hc2]
                simp
          have hnodash : (joinChar '\n' (l2 :: ls2) ++
              '\n' :: (sDashes ++ '\n' :: '\n' :: body)).take 3 ≠ sDashes := by
            rw [hr2, List.cons_append, List.take_succ_cons]
            intro hh
            have hhead : c2 = '-' := (List.cons.injEq _ _ _ _).mp hh |>.1
            exact hc2dash hhead
          have hassoc : l ++ '\n' :: joinChar '\n' (l2 :: ls2) ++
              '\n' :: (sDashes ++ '\n' :: '\n' :: body) =
              l ++ ('\n' :: (joinChar '\n' (l2 :: ls2) ++
              '\n' :: (sDashes ++ '\n' :: '\n' :: body))) := by simp
          rw [hassoc, findClose_append_clean hlnl, findClose_cons_nl_nodash hnodash,
            ih (by simp) (fun x hx => hlines x (List.mem_cons_of_mem l hx))]
          simp

/-- The whole regex matches the serializer's output exactly as intended:
group 1 is the joined field lines, group 2 the body. -/
theorem fmMatch_serialized {fls : List JStr} {body : JStr} (hne : fls ≠ [])
    (hlines : ∀ l ∈ fls, LineOK l) (hb : jsTrim body = body) :
    fmMatch (sDashes ++ '\n' :: (joinChar '\n' fls ++
        '\n' :: (sDashes ++ '\n' :: '\n' :: body))) =
      some (joinChar '\n' fls, body) := by
  obtain ⟨l1, ls, rfl⟩ : ∃ l1 ls, fls = l1 :: ls := by
    cases fls with
    | nil => exact absurd rfl hne
    | cons a b => exact ⟨a, b, rfl⟩
  have hl1OK := hlines l1 (by simp)
  obtain ⟨c1, cs1, hc1, hc1ws⟩ : ∃ c1 cs1, l1 = c1 :: cs1 ∧ isJsWs c1 = false := by
    rcases hl1 : l1 with _ | ⟨c1, cs1⟩
    · rw [hl1] at hl1OK
      exact absurd hl1OK.2 id
    · rw [hl1] at hl1OK
      exact ⟨c1, cs1, rfl, hl1OK.2.2⟩
  obtain ⟨restF, hrF⟩ : ∃ restF, joinChar '\n' (l1 :: ls) = c1 :: restF := by
    cases ls with
    | nil => exact ⟨cs1, by simp [joinChar, hc1]⟩
    | cons l3 ls3 =>
        refine ⟨cs1 ++ '\n' :: joinChar '\n' (l3 :: ls3), ?_⟩
        rw [show joinChar '\n' (l1 :: l3 :: ls3) =
          l1 ++ '\n' :: joinChar '\n' (l3 :: ls3) from rfl, hc1]
        simp
  have hnl : isJsWs '\n' = true := by decide
  have hc1nl : c1 ≠ '\n' := by
    intro hh; subst hh; rw [hnl] at hc1ws; simp at hc1ws
  set tail := '\n' :: (sDashes ++ '\n' :: '\n' :: body) with htail
  have hdrop : ((sDashes ++ '\n' :: (joinChar '\n' (l1 :: ls) ++ tail)).drop 3) =
      '\n' :: (joinChar '\n' (l1 :: ls) ++ tail) := by
    have h : sDashes.length = 3 := rfl
    rw [← h]
    exact List.drop_left sDashes _
  have hws1 : wsRunLen ('\n' :: (joinChar '\n' (l1 :: ls) ++ tail)) = 1 := by
    rw [hrF]
    simp [wsRunLen, List.takeWhile, hnl, hc1ws]
  rw [fmMatch, if_pos (take_three_dashes _), hdrop, hws1]
  have hget1 : ('\n' :: (joinChar '\n' (l1 :: ls) ++ tail)).get? 1 ≠ some '\n' := by
    rw [hrF]
    simpa using hc1nl
  rw [tryOpenNl, if_neg hget1]
  have hhead : ('\n' :: (joinChar '\n' (l1 :: ls) ++ tail)).head? = some '\n' := rfl
  rw [tryOpenNl, if_pos hhead]
  have hdrop1 : ('\n' :: (joinChar '\n' (l1 :: ls) ++ tail)).drop 1 =
      joinChar '\n' (l1 :: ls) ++ tail := rfl
  rw [hdrop1, htail]
  exact findClose_fields hne hlines hb

/-! ## Splitting the matched frontmatter back into lines -/

/-- The line splitter passes an ordinary character into the segment. -/
theorem splitRNAux_cons_other {c : Char} {rest acc : JStr} (h1 : c ≠ '\n') (h2 : c ≠ '\r') :
    splitRNAux (c :: rest) acc = splitRNAux rest (c :: acc) := by
  simp [splitRNAux, h1, h2]

/-- The line splitter splits at a bare newline. -/
theorem splitRNAux_cons_nl (rest acc : JStr) :
    splitRNAux ('\n' :: rest) acc = acc.reverse :: splitRNAux rest [] := by
  simp [splitRNAux]

/-- The line splitter leaves a line-break-free text as one segment. -/
theorem splitRNAux_clean {l : JStr} (h : ∀ c ∈ l, c ≠ '\n' ∧ c ≠ '\r') (acc : JStr) :
    splitRNAux l acc = [acc.reverse ++ l] := by
  induction l generalizing acc with
  | nil => simp [splitRNAux]
  | cons c t ih =>
      obtain ⟨h1, h2⟩ := h c (by simp)
      rw [splitRNAux_cons_other h1 h2, ih (fun d hd => h d (List.mem_cons_of_mem c hd))]
      simp

/-- The line splitter walks over a clean chunk up to a newline. -/
theorem splitRNAux_chunk {l rest acc : JStr} (h : ∀ c ∈ l, c ≠ '\n' ∧ c ≠ '\r') :
    splitRNAux (l ++ '\n' :: rest) acc = (acc.reverse ++ l) :: splitRNAux rest [] := by
  induction l generalizing acc with
  | nil => simpa using splitRNAux_cons_nl rest acc
  | cons c t ih =>
      obtain ⟨h1, h2⟩ := h c (by simp)
      rw [List.cons_append, splitRNAux_cons_other h1 h2,
        ih (fun d hd => h d (List.mem_cons_of_mem c hd))]
      simp

/-- Splitting the joined field lines on `/\r?\n/` recovers the lines. -/
theorem splitRN_joinChar {fls : List JStr} (hne : fls ≠ [])
    (h : ∀ l ∈ fls, ∀ c ∈ l, c ≠ '\n' ∧ c ≠ '\r') :
    splitRN (joinChar '\n' fls) = fls := by
  induction fls with
  | nil => exact absurd rfl hne
  | cons l ls ih =>
      cases ls with
      | nil => simpa [splitRN, joinChar] using splitRNAux_clean (h l (by simp)) []
      | cons l2 ls2 =>
          have hj : joinChar '\n' (l :: l2 :: ls2) = l ++ '\n' :: joinChar '\n' (l2 :: ls2) :=
            rfl
          rw [splitRN, hj, splitRNAux_chunk (h l (by simp))]
          have := ih (by simp) (fun x hx => h x (List.mem_cons_of_mem l hx))
          rw [splitRN] at this
          rw [this]
          simp

/-! ## The serialized field lines through the key/value loop -/

/-- The first colon of a serialized field line sits right after the key. -/
theorem firstColonIdx_key {k : JStr} (rest : JStr) (h : ':' ∉ k) :
    firstColonIdx (k ++ ':' :: rest) = some k.length := by
  induction k with
  | nil => simp [firstColonIdx]
  | cons c t ih =>
      have hc : c ≠ ':' := fun hh => h (hh ▸ List.mem_cons_self c t)
      rw [List.cons_append, firstColonIdx, if_neg hc,
        ih (fun hm => h (List.mem_cons_of_mem c hm))]
      simp

/-- Taking the key length recovers the key. -/
theorem take_key (k rest : JStr) : (k ++ ':' :: rest).take k.length = k :=
  List.take_left k _

/-- Dropping past the colon leaves the raw value. -/
theorem drop_key (k rest : JStr) : (k ++ ':' :: rest).drop (k.length + 1) = rest := by
  have h1 : (k ++ ':' :: rest).drop k.length = ':' :: rest := List.drop_left k _
  have h2 : (k ++ ':' :: rest).drop (k.length + 1) =
      ((k ++ ':' :: rest).drop k.length).drop 1 := by
    rw [List.drop_drop]
  rw [h2, h1]
  rfl

/-- Trimming the raw value of a quoted string field keeps the quotes. -/
theorem jsTrim_space_quoted (v : JStr) :
    jsTrim (' ' :: dquote :: v ++ [dquote]) = dquote :: v ++ [dquote] := by
  have h1 : jsTrim (' ' :: (dquote :: v ++ [dquote])) = jsTrim (dquote :: v ++ [dquote]) :=
    jsTrim_cons_ws (by decide)
  exact h1.trans (jsTrim_cons_concat (by decide) (by decide))

/-- Useful facts about a decimal digit character. -/
theorem digit_facts {c : Char} (h : c.isDigit = true) :
    isJsWs c = false ∧ c ≠ '[' ∧ isQuote c = false := by
  refine ⟨isJsWs_of_digit h, ?_, ?_⟩
  · intro hh; subst hh; simp at h
  · cases hq : isQuote c
    · rfl
    · simp only [isQuote, Bool.or_eq_true, decide_eq_true_eq] at hq
      rcases hq with rfl | rfl
      · exact absurd h (by decide)
      · exact absurd h (by decide)

/-- The printed integer is nonempty, with a safe head character. -/
theorem intToStr_shape (o : Int) :
    ∃ e es, intToStr o = e :: es ∧ isJsWs e = false ∧ e ≠ '[' ∧ isQuote e = false := by
  by_cases h : o < 0
  · exact ⟨'-', natToStr o.natAbs, by simp [intToStr, h], by decide, by decide, by decide⟩
  · obtain ⟨e, es, hes⟩ := List.exists_cons_of_ne_nil (natToStr_ne_nil o.natAbs)
    have hd : e.isDigit = true := natToStr_digits o.natAbs e (by simp [hes])
    obtain ⟨h1, h2, h3⟩ := digit_facts hd
    exact ⟨e, es, by simp [intToStr, h, hes], h1, h2, h3⟩

/-- The printed integer ends in a digit. -/
theorem intToStr_last (o : Int) :
    ∃ d, (intToStr o).getLast? = some d ∧ d.isDigit = true := by
  have hbase : ∃ d, (natToStr o.natAbs).getLast? = some d ∧ d.isDigit = true := by
    have hne := natToStr_ne_nil o.natAbs
    refine ⟨(natToStr o.natAbs).getLast hne, List.getLast?_eq_getLast _ hne, ?_⟩
    exact natToStr_digits o.natAbs _ (List.getLast_mem hne)
  obtain ⟨d, hd1, hd2⟩ := hbase
  by_cases h : o < 0
  · refine ⟨d, ?_, hd2⟩
    obtain ⟨e, es, hes⟩ := List.exists_cons_of_ne_nil (natToStr_ne_nil o.natAbs)
    rw [intToStr, if_pos h, hes, List.getLast?_cons_cons, ← hes]
    exact hd1
  · rw [intToStr, if_neg h]
    exact ⟨d, hd1, hd2⟩

/-- Splitting the comma-space join of comma-free pieces at commas: the first
piece is bare, the later pieces carry their separating space. -/
theorem splitChar_joinCS (q : JStr) (qs : List JStr) (acc : JStr) (hq : ',' ∉ q)
    (h : ∀ x ∈ qs, ',' ∉ x) :
    splitChar ',' (joinCS (q :: qs)) acc =
      (acc.reverse ++ q) :: qs.map (fun x => ' ' :: x) := by
  induction qs generalizing q acc with
  | nil => simpa [joinCS] using splitChar_clean hq
  | cons r rs ih =>
      have hj : joinCS (q :: r :: rs) = q ++ ',' :: ' ' :: joinCS (r :: rs) := rfl
      rw [hj, splitChar_chunk hq, splitChar_cons_ne (by decide) _ _,
        ih r [' '] (h r (by simp)) (fun x hx => h x (List.mem_cons_of_mem r hx))]
      simp

/-- Trimming a string headed by a non-whitespace character is nonempty. -/
theorem jsTrim_cons_ne_nil {c : Char} {s : JStr} (hc : isJsWs c = false) :
    jsTrim (c :: s) ≠ [] := by
  intro hh
  have h1 : (c :: s).dropWhile isJsWs = c :: s := dropWhile_eq_self_of_head (by simp) hc
  rw [jsTrim, h1] at hh
  simp only [dropTrailingWs] at hh
  rw [List.reverse_eq_nil_iff, List.dropWhile_eq_nil_iff] at hh
  have := hh c (by simp)
  rw [hc] at this
  exact Bool.false_ne_true this


/-- A quoted string field line sets its key to the quoted value. -/
theorem processLine_str {st : LoopState} (hst : st.inArr = false) {k v : JStr}
    (hK : KeyOK k) (hko : k ≠ sOrder) :
    processLine st (strFieldLine k v) = { st with md := assocSet st.md k (.str v) } := by
  obtain ⟨hcolon, htrimk, c, cs, hk, hcws, _⟩ := hK
  have hline : strFieldLine k v = k ++ ':' :: (' ' :: dquote :: v ++ [dquote]) := by
    simp [strFieldLine]
  have hshape : strFieldLine k v = c :: (cs ++ ':' :: ' ' :: dquote :: v) ++ [dquote] := by
    rw [hline, hk]
    simp
  have htrim : jsTrim (strFieldLine k v) = strFieldLine k v := by
    rw [hshape]
    exact jsTrim_cons_concat hcws (by decide)
  have hne : strFieldLine k v ≠ [] := by rw [hshape]; simp
  have hcidx : firstColonIdx (strFieldLine k v) = some k.length := by
    rw [hline]
    exact firstColonIdx_key _ hcolon
  have hpos : 0 < k.length := by rw [hk]; simp
  have htake : jsTrim ((strFieldLine k v).take k.length) = k := by
    rw [hline, take_key, htrimk]
  have hdrop : jsTrim ((strFieldLine k v).drop (k.length + 1)) = dquote :: v ++ [dquote] := by
    rw [hline, drop_key]
    exact jsTrim_space_quoted v
  have hvne : dquote :: v ++ [dquote] ≠ [] := by simp
  have hvhead : (dquote :: v ++ [dquote]).head? ≠ some '[' := by
    simp only [List.cons_append, List.head?_cons]
    intro hh
    exact absurd (Option.some.inj hh) (by decide)
  simp only [processLine, htrim, if_neg hne, hst, Bool.false_and, Bool.false_eq_true,
    if_false, if_neg (by simp : (false : Bool) ≠ true)]
  rw [hcidx]
  simp only [if_pos hpos, htake, hdrop, if_neg hvne]
  rw [if_neg, if_neg hko]
  · rw [stripQuotes_quoted]
  · simp only [Bool.and_eq_true, decide_eq_true_eq]
    intro hh
    exact hvhead hh.1

/-- The unfolded characters of the key "order". -/
theorem sOrder_chars : sOrder = 'o' :: 'r' :: 'd' :: 'e' :: 'r' :: [] := rfl

/-- The order field line sets `order` to the parsed integer, which round-trips. -/
theorem processLine_order {st : LoopState} (hst : st.inArr = false) (o : Int) :
    processLine st (orderFieldLine o) = { st with md := assocSet st.md sOrder (.int o) } := by
  obtain ⟨e, es, hes, hews, hebr, hequote⟩ := intToStr_shape o
  obtain ⟨d, hd, hddig⟩ := intToStr_last o
  have hdsne : intToStr o ≠ [] := by rw [hes]; simp
  have hds : intToStr o = (intToStr o).dropLast ++ [d] := by
    have hgl : (intToStr o).getLast hdsne = d := by
      rw [List.getLast?_eq_getLast _ hdsne] at hd
      exact Option.some.inj hd
    have hdec := (List.dropLast_append_getLast hdsne).symm
    rw [hgl] at hdec
    exact hdec
  have hline : orderFieldLine o = sOrder ++ ':' :: (' ' :: intToStr o) := by
    simp [orderFieldLine]
  have hshape : orderFieldLine o =
      'o' :: ('r' :: 'd' :: 'e' :: 'r' :: ':' :: ' ' :: (intToStr o).dropLast) ++ [d] := by
    rw [hline, sOrder_chars]
    conv_lhs => rw [hds]
    simp
  have htrim : jsTrim (orderFieldLine o) = orderFieldLine o := by
    rw [hshape]
    exact jsTrim_cons_concat (by decide) (isJsWs_of_digit hddig)
  have hne : orderFieldLine o ≠ [] := by rw [hshape]; simp
  have hcidx : firstColonIdx (orderFieldLine o) = some sOrder.length := by
    rw [hline]
    exact firstColonIdx_key _ (by rw [sOrder_chars]; decide)
  have hpos : 0 < sOrder.length := by rw [sOrder_chars]; simp
  have htake : jsTrim ((orderFieldLine o).take sOrder.length) = sOrder := by
    rw [hline, take_key]
    rw [sOrder_chars]
    decide
  have hvtrim : jsTrim (' ' :: intToStr o) = intToStr o := by
    have h1 : jsTrim (' ' :: intToStr o) = jsTrim (intToStr o) := jsTrim_cons_ws (by decide)
    rw [h1]
    exact jsTrim_eq_self (c := e) (d := d) (by rw [hes]; rfl) hews hd
      (isJsWs_of_digit hddig)
  have hdrop : jsTrim ((orderFieldLine o).drop (sOrder.length + 1)) = intToStr o := by
    rw [hline, drop_key]
    exact hvtrim
  have hvne : intToStr o ≠ [] := hdsne
  have hvhead : (intToStr o).head? ≠ some '[' := by
    rw [hes]
    simp only [List.head?_cons]
    intro hh
    exact hebr (Option.some.inj hh)
  have hstrip : stripQuotes (intToStr o) = intToStr o := by
    refine stripQuotes_eq_self ?_ ?_
    · intro c hc
      rw [hes] at hc
      simp only [List.head?_cons] at hc
      rw [← Option.some.inj hc]
      exact hequote
    · intro c hc
      rw [hd] at hc
      rw [← Option.some.inj hc]
      exact (digit_facts hddig).2.2
  simp only [processLine, htrim, if_neg hne, hst, Bool.false_and, Bool.false_eq_true,
    if_false, if_neg (by simp : (false : Bool) ≠ true)]
  rw [hcidx]
  simp only [if_pos hpos, htake, hdrop, if_neg hvne]
  rw [if_neg (by
    simp only [Bool.and_eq_true, decide_eq_true_eq]
    intro hh
    exact hvhead hh.1)]
  rw [hstrip, parseIntJs_intToStr]
  simp [orZero]

/-- The unfolded characters of the key "tags". -/
theorem sTags_chars : sTags = 't' :: 'a' :: 'g' :: 's' :: [] := rfl

/-- The tags field line sets `tags` to the original list of tags. -/
theorem processLine_tags {st : LoopState} (hst : st.inArr = false) {ts : List JStr}
    (hne0 : ts ≠ []) (hcomma : ∀ t ∈ ts, ',' ∉ t) :
    processLine st (tagsFieldLine ts) = { st with md := assocSet st.md sTags (.arr ts) } := by
  set inner := joinCS (ts.map (fun t => dquote :: t ++ [dquote])) with hinner
  obtain ⟨t1, rest, rfl⟩ : ∃ t1 rest, ts = t1 :: rest := by
    cases ts with
    | nil => exact absurd rfl hne0
    | cons a b => exact ⟨a, b, rfl⟩
  have hline : tagsFieldLine (t1 :: rest) = sTags ++ ':' :: (' ' :: '[' :: inner ++ [']']) := by
    simp [tagsFieldLine, hinner]
  have hinner_head : ∃ irest, inner = dquote :: irest := by
    rw [hinner]
    cases rest with
    | nil => exact ⟨t1 ++ [dquote], by simp [joinCS]⟩
    | cons r rs =>
        refine ⟨t1 ++ [dquote] ++ ',' :: ' ' :: joinCS ((r :: rs).map
          (fun t => dquote :: t ++ [dquote])), ?_⟩
        show (dquote :: t1 ++ [dquote]) ++ ',' :: ' ' :: _ = _
        simp
  have hshape : tagsFieldLine (t1 :: rest) =
      't' :: ('a' :: 'g' :: 's' :: ':' :: ' ' :: '[' :: inner) ++ [']'] := by
    rw [hline, sTags_chars]
    simp
  have htrim : jsTrim (tagsFieldLine (t1 :: rest)) = tagsFieldLine (t1 :: rest) := by
    rw [hshape]
    exact jsTrim_cons_concat (by decide) (by decide)
  have hne : tagsFieldLine (t1 :: rest) ≠ [] := by rw [hshape]; simp
  have hcidx : firstColonIdx (tagsFieldLine (t1 :: rest)) = some sTags.length := by
    rw [hline]
    exact firstColonIdx_key _ (by rw [sTags_chars]; decide)
  have hpos : 0 < sTags.length := by rw [sTags_chars]; simp
  have htake : jsTrim ((tagsFieldLine (t1 :: rest)).take sTags.length) = sTags := by
    rw [hline, take_key, sTags_chars]
    decide
  have hdrop : jsTrim ((tagsFieldLine (t1 :: rest)).drop (sTags.length + 1)) =
      '[' :: inner ++ [']'] := by
    rw [hline, drop_key]
    have h1 : jsTrim (' ' :: ('[' :: inner ++ [']'])) = jsTrim ('[' :: inner ++ [']']) :=
      jsTrim_cons_ws (by decide)
    exact h1.trans (jsTrim_cons_concat (by decide) (by decide))
  have hvne : '[' :: inner ++ [']'] ≠ [] := by simp
  have hvhead : ('[' :: inner ++ [']']).head? = some '[' := rfl
  have hvlast : ('[' :: inner ++ [']']).getLast? = some ']' := by
    rw [show '[' :: inner ++ [']'] = ('[' :: inner) ++ [']'] from by simp]
    exact List.getLast?_concat _
  have hac : (('[' :: inner ++ [']']).drop 1).dropLast = inner := by
    rw [show ('[' :: inner ++ [']']).drop 1 = inner ++ [']'] from rfl]
    exact List.dropLast_concat ..
  have hacne : jsTrim inner ≠ [] := by
    obtain ⟨irest, hir⟩ := hinner_head
    rw [hir]
    exact jsTrim_cons_ne_nil (by decide)
  have hsplit : (splitChar ',' inner []).map (fun it => stripQuotes (jsTrim it)) =
      t1 :: rest := by
    have hq1 : ',' ∉ dquote :: t1 ++ [dquote] := by
      intro hm
      rcases List.mem_cons.mp hm with hh | hm2
      · exact absurd hh.symm (by decide)
      · rcases List.mem_append.mp hm2 with h3 | h4
        · exact hcomma t1 (by simp) h3
        · simp only [List.mem_singleton] at h4
          exact absurd h4.symm (by decide)
    have hqs : ∀ x ∈ rest.map (fun t => dquote :: t ++ [dquote]), ',' ∉ x := by
      intro x hx
      obtain ⟨t, ht, rfl⟩ := List.mem_map.mp hx
      intro hm
      rcases List.mem_cons.mp hm with hh | hm2
      · exact absurd hh.symm (by decide)
      · rcases List.mem_append.mp hm2 with h3 | h4
        · exact hcomma t (List.mem_cons_of_mem t1 ht) h3
        · simp only [List.mem_singleton] at h4
          exact absurd h4.symm (by decide)
    have hsc : splitChar ',' inner [] =
        (dquote :: t1 ++ [dquote]) :: (rest.map (fun t => dquote :: t ++ [dquote])).map
          (fun x => ' ' :: x) := by
      rw [hinner, List.map_cons]
      exact splitChar_joinCS _ _ [] hq1 hqs
    rw [hsc, List.map_cons, List.map_map]
    congr 1
    · rw [show jsTrim (dquote :: t1 ++ [dquote]) = dquote :: t1 ++ [dquote] from
        jsTrim_cons_concat (by decide) (by decide)]
      exact stripQuotes_quoted t1
    · rw [List.map_map]
      have : ∀ t ∈ rest,
          ((fun it => stripQuotes (jsTrim it)) ∘ (fun x => ' ' :: x) ∘
            (fun t => dquote :: t ++ [dquote])) t = t := by
        intro t _
        show stripQuotes (jsTrim (' ' :: dquote :: t ++ [dquote])) = t
        rw [jsTrim_space_quoted]
        exact stripQuotes_quoted t
      calc rest.map _ = rest.map id := List.map_congr_left this
        _ = rest := List.map_id rest
  simp only [processLine, htrim, if_neg hne, hst, Bool.false_and, Bool.false_eq_true,
    if_false, if_neg (by simp : (false : Bool) ≠ true)]
  rw [hcidx]
  simp only [if_pos hpos, htake, hdrop, if_neg hvne]
  rw [if_pos (by
    simp only [Bool.and_eq_true, decide_eq_true_eq]
    exact ⟨hvhead, hvlast⟩)]
  rw [hac, if_pos hacne, hsplit]

/-! ## Uniform treatment of the serialized fields -/


/-- Each well-formed field line sets exactly its key/value pair. -/
theorem processLine_spec {st : LoopState} (hst : st.inArr = false) {f : FieldSpec}
    (hf : SpecOK f) :
    processLine st (specLine f) = { st with md := assocSet st.md (specKey f) (specVal f) } := by
  cases f with
  | strF k v => exact processLine_str hst hf.1 hf.2.1
  | intF o => exact processLine_order hst o
  | arrF ts => exact processLine_tags hst hf.1 (fun t ht => (hf.2 t ht).1)

/-- Folding the loop over well-formed field lines only accumulates the
key/value pairs, leaving the array state closed. -/
theorem foldl_specs (fs : List FieldSpec) : ∀ (st : LoopState), st.inArr = false →
    (∀ f ∈ fs, SpecOK f) →
    (fs.map specLine).foldl processLine st =
      { st with md := fs.foldl (fun md f => assocSet md (specKey f) (specVal f)) st.md } := by
  induction fs with
  | nil => intro st hst _; simp
  | cons f fs ih =>
      intro st hst hOK
      rw [List.map_cons, List.foldl_cons, processLine_spec hst (hOK f (by simp))]
      rw [ih { st with md := assocSet st.md (specKey f) (specVal f) } hst
        (fun g hg => hOK g (List.mem_cons_of_mem f hg))]
      simp

/-- The whole loop over well-formed field lines produces the accumulated
record. -/
theorem fmLoop_specs (fs : List FieldSpec) (hOK : ∀ f ∈ fs, SpecOK f) :
    fmLoop (fs.map specLine) =
      fs.foldl (fun md f => assocSet md (specKey f) (specVal f)) [] := by
  rw [fmLoop, foldl_specs fs ⟨[], [], false, []⟩ rfl hOK]
  simp

/-! ## The serialized field list of a metadata record -/


/-- The serializer's field lines are exactly the lines of the field list. -/
theorem fieldLines_eq_specs (m : Meta) : fieldLines m = (specsOf m).map specLine := by
  obtain ⟨t, d, o, i, tg⟩ := m
  simp only [fieldLines, specsOf, optDescSpec, optOrderSpec, optIconSpec, optTagsSpec,
    List.map_cons, List.map_append, specLine]
  cases d <;> cases o <;> cases i <;> cases tg <;>
    simp [specLine, apply_ite (List.map specLine)]

/-- Folding fresh distinct-key pairs into a record appends them in order. -/
theorem foldl_assocSet_of_fresh :
    ∀ (ps : List (JStr × FMValue)) (md : FMRecord),
      (∀ p ∈ ps, assocLookup p.1 md = none) → ps.Pairwise (fun a b => a.1 ≠ b.1) →
      ps.foldl (fun md p => assocSet md p.1 p.2) md = md ++ ps := by
  intro ps
  induction ps with
  | nil => intro md _ _; simp
  | cons p ps ih =>
      intro md hfresh hpair
      rw [List.foldl_cons, assocSet_fresh (hfresh p (by simp))]
      rw [List.pairwise_cons] at hpair
      rw [ih (md ++ [(p.1, p.2)]) ?_ hpair.2]
      · simp
      · intro q hq
        rw [assocLookup_append]
        rw [hfresh q (List.mem_cons_of_mem p hq)]
        have hne : p.1 ≠ q.1 := hpair.1 q hq
        simp [assocLookup, fun hh : p.1 = q.1 => hne hh]

/-- Membership in the optional description field fixes its key. -/
theorem key_of_optDescSpec {m : Meta} {f : FieldSpec} (h : f ∈ optDescSpec m) :
    specKey f = sDescription := by
  rw [optDescSpec] at h
  cases hd : m.description with
  | none => rw [hd] at h; simp at h
  | some d =>
      rw [hd] at h
      by_cases hde : d = []
      · simp [hde] at h
      · simp [hde] at h
        rw [h]
        rfl

/-- Membership in the optional order field fixes its key. -/
theorem key_of_optOrderSpec {m : Meta} {f : FieldSpec} (h : f ∈ optOrderSpec m) :
    specKey f = sOrder := by
  rw [optOrderSpec] at h
  cases ho : m.order with
  | none => rw [ho] at h; simp at h
  | some o =>
      rw [ho] at h
      simp at h
      rw [h]
      rfl

/-- Membership in the optional icon field fixes its key. -/
theorem key_of_optIconSpec {m : Meta} {f : FieldSpec} (h : f ∈ optIconSpec m) :
    specKey f = sIcon := by
  rw [optIconSpec] at h
  cases hi : m.icon with
  | none => rw [hi] at h; simp at h
  | some i =>
      rw [hi] at h
      by_cases hie : i = []
      · simp [hie] at h
      · simp [hie] at h
        rw [h]
        rfl

/-- Membership in the optional tags field fixes its key. -/
theorem key_of_optTagsSpec {m : Meta} {f : FieldSpec} (h : f ∈ optTagsSpec m) :
    specKey f = sTags := by
  rw [optTagsSpec] at h
  cases ht : m.tags with
  | none => rw [ht] at h; simp at h
  | some ts =>
      rw [ht] at h
      by_cases hte : 0 < ts.length
      · simp [hte] at h
        rw [h]
        rfl
      · simp [hte] at h

/-- An optional field list holds at most one element. -/
theorem opt_pairwise {l : List FieldSpec} (h : l.length ≤ 1) :
    l.Pairwise (fun a b => specKey a ≠ specKey b) := by
  cases l with
  | nil => simp
  | cons a t =>
      cases t with
      | nil => simp
      | cons b u => simp at h

/-- The serialized fields carry pairwise distinct keys. -/
theorem specsOf_keys_pairwise (m : Meta) :
    (specsOf m).Pairwise (fun a b => specKey a ≠ specKey b) := by
  have hlen : ∀ (f : Meta → List FieldSpec), (∀ m, (f m).length ≤ 1) → True := fun _ _ => trivial
  have hd1 : (optDescSpec m).length ≤ 1 := by
    rw [optDescSpec]; cases m.description <;> simp <;> split_ifs <;> simp
  have ho1 : (optOrderSpec m).length ≤ 1 := by
    rw [optOrderSpec]; cases m.order <;> simp
  have hi1 : (optIconSpec m).length ≤ 1 := by
    rw [optIconSpec]; cases m.icon <;> simp <;> split_ifs <;> simp
  have ht1 : (optTagsSpec m).length ≤ 1 := by
    rw [optTagsSpec]; cases m.tags <;> simp <;> split_ifs <;> simp
  rw [specsOf, List.pairwise_cons]
  constructor
  · intro f hf
    simp only [List.mem_append] at hf
    rcases hf with ((hf | hf) | hf) | hf
    · rw [key_of_optDescSpec hf]; simp only [specKey]; decide
    · rw [key_of_optOrderSpec hf]; simp only [specKey]; decide
    · rw [key_of_optIconSpec hf]; simp only [specKey]; decide
    · rw [key_of_optTagsSpec hf]; simp only [specKey]; decide
  · rw [List.pairwise_append]
    refine ⟨?_, ?_, ?_⟩
    · rw [List.pairwise_append]
      refine ⟨?_, ?_, ?_⟩
      · rw [List.pairwise_append]
        refine ⟨opt_pairwise hd1, opt_pairwise ho1, ?_⟩
        intro a ha b hb
        rw [key_of_optDescSpec ha, key_of_optOrderSpec hb]
        decide
      · exact opt_pairwise hi1
      · intro a ha b hb
        simp only [List.mem_append] at ha
        rw [key_of_optIconSpec hb]
        rcases ha with ha | ha
        · rw [key_of_optDescSpec ha]; decide
        · rw [key_of_optOrderSpec ha]; decide
    · exact opt_pairwise ht1
    · intro a ha b hb
      simp only [List.mem_append] at ha
      rw [key_of_optTagsSpec hb]
      rcases ha with (ha | ha) | ha
      · rw [key_of_optDescSpec ha]; decide
      · rw [key_of_optOrderSpec ha]; decide
      · rw [key_of_optIconSpec ha]; decide

/-- Accumulating the serialized fields into an empty record yields exactly the
expected metadata record. -/
theorem fold_specs_eq_metaFields (m : Meta) :
    (specsOf m).foldl (fun md f => assocSet md (specKey f) (specVal f)) [] = metaFields m := by
  have h1 : (specsOf m).foldl (fun md f => assocSet md (specKey f) (specVal f)) [] =
      ((specsOf m).map pairOf).foldl (fun md p => assocSet md p.1 p.2) [] := by
    rw [List.foldl_map]
    rfl
  rw [h1, foldl_assocSet_of_fresh _ [] (by intro p _; rfl) ?_]
  · simp [metaFields]
  · rw [List.pairwise_map]
    exact specsOf_keys_pairwise m

/-! ## Valid metadata and the round-trip theorem -/


/-- The title key is well-behaved. -/
theorem keyOK_title : KeyOK sTitle :=
  ⟨by decide, by decide, 't', ['i', 't', 'l', 'e'], rfl, by decide, by decide⟩

/-- The description key is well-behaved. -/
theorem keyOK_description : KeyOK sDescription :=
  ⟨by decide, by decide, 'd', ['e', 's', 'c', 'r', 'i', 'p', 't', 'i', 'o', 'n'], rfl,
    by decide, by decide⟩

/-- The icon key is well-behaved. -/
theorem keyOK_icon : KeyOK sIcon :=
  ⟨by decide, by decide, 'i', ['c', 'o', 'n'], rfl, by decide, by decide⟩

/-- Unpacking the string well-formedness test. -/
theorem strOKb_prop {s : JStr} (h : strOKb s = true) : ∀ c ∈ s, c ≠ '\n' ∧ c ≠ '\r' := by
  intro c hc
  have := List.all_eq_true.mp h c hc
  exact of_decide_eq_true this

/-- Unpacking the tag well-formedness test. -/
theorem tagOKb_prop {t : JStr} (h : tagOKb t = true) :
    ',' ∉ t ∧ ∀ c ∈ t, c ≠ '\n' ∧ c ≠ '\r' := by
  constructor
  · intro hm
    have := of_decide_eq_true (List.all_eq_true.mp h ',' hm)
    exact this.2.2 rfl
  · intro c hc
    have := of_decide_eq_true (List.all_eq_true.mp h c hc)
    exact ⟨this.1, this.2.1⟩

/-- Every serialized field of a valid metadata record is well-formed. -/
theorem specsOf_SpecOK {m : Meta} (h : validMeta m = true) : ∀ f ∈ specsOf m, SpecOK f := by
  rw [validMeta, Bool.and_eq_true, Bool.and_eq_true, Bool.and_eq_true] at h
  obtain ⟨⟨⟨htitle, hdesc⟩, hicon⟩, htags⟩ := h
  intro f hf
  rw [specsOf] at hf
  rcases List.mem_cons.mp hf with rfl | hf
  · exact ⟨keyOK_title, by decide, by decide, strOKb_prop htitle⟩
  simp only [List.mem_append] at hf
  rcases hf with ((hf | hf) | hf) | hf
  · rw [optDescSpec] at hf
    cases hd : m.description with
    | none => rw [hd] at hf; simp at hf
    | some d =>
        rw [hd] at hf
        by_cases hde : d = []
        · simp [hde] at hf
        · simp only [hde, ne_eq, not_false_eq_true, if_true, List.mem_singleton] at hf
          subst hf
          rw [hd] at hdesc
          simp only [Bool.and_eq_true] at hdesc
          exact ⟨keyOK_description, by decide, by decide, strOKb_prop hdesc.2⟩
  · rw [optOrderSpec] at hf
    cases ho : m.order with
    | none => rw [ho] at hf; simp at hf
    | some o =>
        rw [ho] at hf
        simp only [List.mem_singleton] at hf
        subst hf
        exact trivial
  · rw [optIconSpec] at hf
    cases hi : m.icon with
    | none => rw [hi] at hf; simp at hf
    | some i =>
        rw [hi] at hf
        by_cases hie : i = []
        · simp [hie] at hf
        · simp only [hie, ne_eq, not_false_eq_true, if_true, List.mem_singleton] at hf
          subst hf
          rw [hi] at hicon
          simp only [Bool.and_eq_true] at hicon
          exact ⟨keyOK_icon, by decide, by decide, strOKb_prop hicon.2⟩
  · rw [optTagsSpec] at hf
    cases ht : m.tags with
    | none => rw [ht] at hf; simp at hf
    | some ts =>
        rw [ht] at hf
        by_cases hte : 0 < ts.length
        · simp only [hte, if_true, List.mem_singleton] at hf
          subst hf
          rw [ht] at htags
          simp only [Bool.and_eq_true] at htags
          refine ⟨by intro hh; rw [hh] at hte; simp at hte, ?_⟩
          intro t htm
          have := tagOKb_prop (List.all_eq_true.mp htags.2 t htm)
          exact ⟨this.1, this.2⟩
        · simp [hte] at hf

/-- A character of a comma-space join comes from a piece or is a comma/space. -/
theorem mem_joinCS {c : Char} : ∀ {qs : List JStr}, c ∈ joinCS qs →
    (∃ q ∈ qs, c ∈ q) ∨ c = ',' ∨ c = ' ' := by
  intro qs
  induction qs with
  | nil => intro h; simp [joinCS] at h
  | cons q qs ih =>
      intro h
      cases qs with
      | nil =>
          rw [show joinCS [q] = q from rfl] at h
          exact Or.inl ⟨q, by simp, h⟩
      | cons r rs =>
          rw [show joinCS (q :: r :: rs) = q ++ ',' :: ' ' :: joinCS (r :: rs) from rfl] at h
          rcases List.mem_append.mp h with h1 | h2
          · exact Or.inl ⟨q, by simp, h1⟩
          · rcases List.mem_cons.mp h2 with rfl | h3
            · exact Or.inr (Or.inl rfl)
            · rcases List.mem_cons.mp h3 with rfl | h4
              · exact Or.inr (Or.inr rfl)
              · rcases ih h4 with ⟨x, hx, hcx⟩ | h5
                · exact Or.inl ⟨x, List.mem_cons_of_mem q hx, hcx⟩
                · exact Or.inr h5

/-- Every character of a printed integer is a digit or the minus sign. -/
theorem intToStr_chars (o : Int) : ∀ c ∈ intToStr o, c.isDigit = true ∨ c = '-' := by
  intro c hc
  rw [intToStr] at hc
  by_cases h : o < 0
  · rw [if_pos h] at hc
    rcases List.mem_cons.mp hc with rfl | h2
    · exact Or.inr rfl
    · exact Or.inl (natToStr_digits _ c h2)
  · rw [if_neg h] at hc
    exact Or.inl (natToStr_digits _ c hc)

/-- A digit is not a line break. -/
theorem digit_not_break {c : Char} (h : c.isDigit = true) : c ≠ '\n' ∧ c ≠ '\r' := by
  constructor <;> intro hh <;> subst hh <;> simp at h

/-- The line of every well-formed serialized field is safe for the matcher. -/
theorem specLine_LineOK {f : FieldSpec} (hf : SpecOK f) : LineOK (specLine f) := by
  cases f with
  | strF k v =>
      obtain ⟨⟨_, _, c, cs, hk, hcws, hcd⟩, _, hkchars, hvchars⟩ := hf
      have hshape : specLine (.strF k v) =
          (k ++ ':' :: ' ' :: dquote :: v) ++ [dquote] := by
        simp [specLine, strFieldLine]
      constructor
      · intro c2 hc2
        rw [hshape] at hc2
        rcases List.mem_append.mp hc2 with h1 | h7
        · rcases List.mem_append.mp h1 with h2 | h3
          · exact hkchars c2 h2
          · rcases List.mem_cons.mp h3 with rfl | h4
            · exact ⟨by decide, by decide⟩
            · rcases List.mem_cons.mp h4 with rfl | h5
              · exact ⟨by decide, by decide⟩
              · rcases List.mem_cons.mp h5 with rfl | h6
                · exact ⟨by decide, by decide⟩
                · exact hvchars c2 h6
        · simp only [List.mem_singleton] at h7
          subst h7
          exact ⟨by decide, by decide⟩
      · rw [hshape, hk]
        exact ⟨hcd, hcws⟩
  | intF o =>
      have hshape : specLine (.intF o) = sOrder ++ ':' :: ' ' :: intToStr o := by
        simp [specLine, orderFieldLine]
      constructor
      · intro c2 hc2
        rw [hshape] at hc2
        rcases List.mem_append.mp hc2 with h1 | h2
        · rw [sOrder_chars] at h1
          fin_cases h1 <;> exact ⟨by decide, by decide⟩
        · rcases List.mem_cons.mp h2 with rfl | h3
          · exact ⟨by decide, by decide⟩
          · rcases List.mem_cons.mp h3 with rfl | h4
            · exact ⟨by decide, by decide⟩
            · rcases intToStr_chars o c2 h4 with hd | rfl
              · exact digit_not_break hd
              · exact ⟨by decide, by decide⟩
      · rw [hshape, sOrder_chars]
        exact ⟨by decide, by decide⟩
  | arrF ts =>
      obtain ⟨_, hts⟩ := hf
      have hshape : specLine (.arrF ts) =
          (sTags ++ ':' :: ' ' :: '[' ::
            joinCS (ts.map (fun t => dquote :: t ++ [dquote]))) ++ [']'] := by
        simp [specLine, tagsFieldLine]
      constructor
      · intro c2 hc2
        rw [hshape] at hc2
        rcases List.mem_append.mp hc2 with h1 | h7
        · rcases List.mem_append.mp h1 with h2 | h3
          · rw [sTags_chars] at h2
            fin_cases h2 <;> exact ⟨by decide, by decide⟩
          · rcases List.mem_cons.mp h3 with rfl | h4
            · exact ⟨by decide, by decide⟩
            · rcases List.mem_cons.mp h4 with rfl | h5
              · exact ⟨by decide, by decide⟩
              · rcases List.mem_cons.mp h5 with rfl | h6
                · exact ⟨by decide, by decide⟩
                · rcases mem_joinCS h6 with ⟨q, hq, hcq⟩ | hcs
                  · obtain ⟨t, ht, rfl⟩ := List.mem_map.mp hq
                    rcases List.mem_cons.mp hcq with rfl | h8
                    · exact ⟨by decide, by decide⟩
                    · rcases List.mem_append.mp h8 with h9 | h10
                      · exact (hts t ht).2 c2 h9
                      · simp only [List.mem_singleton] at h10
                        subst h10
                        exact ⟨by decide, by decide⟩
                  · rcases hcs with rfl | rfl
                    · exact ⟨by decide, by decide⟩
                    · exact ⟨by decide, by decide⟩
        · simp only [List.mem_singleton] at h7
          subst h7
          exact ⟨by decide, by decide⟩
      · rw [hshape, sTags_chars]
        exact ⟨by decide, by decide⟩

/-- Unfolding a join at a head with a nonempty tail. -/
theorem joinChar_cons_of_ne {sep : Char} {ls : List JStr} (a : JStr) (h : ls ≠ []) :
    joinChar sep (a :: ls) = a ++ sep :: joinChar sep ls := by
  cases ls with
  | nil => exact absurd rfl h
  | cons b t => rfl

/-- Unfolding a join at a final element after a nonempty prefix. -/
theorem joinChar_concat {sep : Char} {ls : List JStr} (b : JStr) (h : ls ≠ []) :
    joinChar sep (ls ++ [b]) = joinChar sep ls ++ sep :: b := by
  induction ls with
  | nil => exact absurd rfl h
  | cons a t ih =>
      cases t with
      | nil => rfl
      | cons c u =>
          rw [List.cons_append, joinChar_cons_of_ne a (by simp),
            joinChar_cons_of_ne a (by simp), ih (by simp)]
          simp

/-- The field lines of any metadata record are nonempty. -/
theorem fieldLines_ne_nil (m : Meta) : fieldLines m ≠ [] := by
  rw [fieldLines]
  simp

/-- The serialization splits as opening delimiter, joined field lines, closing
delimiter, blank line, body. -/
theorem createFrontmatter_shape (m : Meta) (body : JStr) :
    createFrontmatter m ++ body =
      sDashes ++ '\n' :: (joinChar '\n' (fieldLines m) ++
        '\n' :: (sDashes ++ '\n' :: '\n' :: body)) := by
  rw [createFrontmatter]
  rw [show sDashes :: fieldLines m ++ [sDashes] = sDashes :: (fieldLines m ++ [sDashes])
    from by simp]
  rw [joinChar_cons_of_ne sDashes (by simp), joinChar_concat sDashes (fieldLines_ne_nil m)]
  show ((sDashes ++ '\n' :: (joinChar '\n' (fieldLines m) ++ '\n' :: sDashes)) ++
    ['\n', '\n']) ++ body = _
  simp

/-- Claim C5 (round trip): parsing the serialization of a valid metadata
record followed by a trimmed body yields back exactly that metadata record
(as its ordered key/value field list) and that body. -/
theorem parse_createFrontmatter_roundtrip (m : Meta) (body : JStr)
    (hm : validMeta m = true) (hb : jsTrim body = body) :
    svcParseFrontmatter (createFrontmatter m ++ body) = (metaFields m, body) := by
  have hOK := specsOf_SpecOK hm
  have hlines : ∀ l ∈ fieldLines m, LineOK l := by
    intro l hl
    rw [fieldLines_eq_specs] at hl
    obtain ⟨f, hf, rfl⟩ := List.mem_map.mp hl
    exact specLine_LineOK (hOK f hf)
  have hmatch := @fmMatch_serialized (fieldLines m) body
    (fieldLines_ne_nil m) hlines hb
  rw [svcParseFrontmatter, createFrontmatter_shape, hmatch]
  show (fmLoop (splitRN (joinChar '\n' (fieldLines m))), jsTrim body) = (metaFields m, body)
  have hsplit : splitRN (joinChar '\n' (fieldLines m)) = fieldLines m := by
    refine splitRN_joinChar (fieldLines_ne_nil m) ?_
    intro l hl c hc
    exact (hlines l hl).1 c hc
  rw [hsplit, hb, fieldLines_eq_specs, fmLoop_specs (specsOf m) hOK,
    fold_specs_eq_metaFields]

/-! ## Claims about polling, refresh failure, and the caches -/

/-- Claim C2: in a poll cycle whose branch-head fetch succeeds, a refresh is
triggered exactly when a previously stored head exists and differs from the
fetched head; on the very first poll (no stored head) no refresh is triggered.
The stored head, being a commit identifier, is assumed nonempty (the code
tests it for JavaScript truthiness). -/
theorem checkForUpdates_refresh_iff_head_changed (lastSha : Option JStr) (cur : JStr)
    (refreshOk : Bool) (hvalid : lastSha ≠ some ([] : JStr)) :
    (checkForUpdates lastSha (some cur) refreshOk).refreshTriggered = true ↔
      ∃ prev, lastSha = some prev ∧ prev ≠ cur := by
  cases lastSha with
  | none =>
      simp [checkForUpdates]
  | some prev =>
      have hne : prev ≠ [] := fun hh => hvalid (by rw [hh])
      by_cases hc : prev = cur
      · subst hc
        simp [checkForUpdates]
      · have hcond : (decide (prev ≠ []) && decide (prev ≠ cur)) = true := by
          simp [hne, hc]
        rw [checkForUpdates]
        simp only [hcond, if_true]
        constructor
        · intro _
          exact ⟨prev, rfl, hc⟩
        · intro _
          cases refreshOk <;> rfl

/-- Witness for claim C2 at a concrete changed head. -/
theorem checkForUpdates_refresh_iff_head_changed_witness :
    (checkForUpdates (some ['a']) (some ['b']) true).refreshTriggered = true :=
  (checkForUpdates_refresh_iff_head_changed (some ['a']) ['b'] true (by decide)).mpr
    ⟨['a'], rfl, by decide⟩

/-- Counterexample to claim C3 as stated: in a cycle where the head fetch
succeeds with a new head and the triggered refresh throws, the exception skips
the head assignment, so the stored head is not updated to the fetched one. -/
theorem checkForUpdates_failed_refresh_keeps_old_head :
    (checkForUpdates (some ['a']) (some ['b']) false).refreshTriggered = true ∧
    (checkForUpdates (some ['a']) (some ['b']) false).newLastSha ≠ some ['b'] := by
  decide

/-- Claim C3 as amended: when the head fetch succeeds, the stored head is
updated to the fetched commit — except in the cycle where a refresh was
triggered and that refresh failed, in which case the stored head is left
unchanged. -/
theorem checkForUpdates_head_update_conditions (lastSha : Option JStr) (cur : JStr)
    (refreshOk : Bool) :
    (checkForUpdates lastSha (some cur) refreshOk).newLastSha =
      if (checkForUpdates lastSha (some cur) refreshOk).refreshTriggered = true ∧
          refreshOk = false
      then lastSha else some cur := by
  cases lastSha with
  | none => simp [checkForUpdates]
  | some prev =>
      rw [checkForUpdates]
      cases hP : (decide (prev ≠ []) && decide (prev ≠ cur)) with
      | true => cases refreshOk <;> simp
      | false => simp

/-- Claim C6: when the tree listing itself cannot be fetched, `getAllDocs`
rethrows and the cache contents are exactly what they were before the call. -/
theorem getAllDocs_tree_failure_preserves_cache (basePath : JStr) (cache : SvcCache)
    (fetch : FileEntry → Option JStr) :
    getAllDocs basePath cache none fetch = (none, cache) := rfl

/-- Claim C7: a cache entry older than the freshness window is still returned
to the caller while the re-fetch has not delivered (modelled as the fetch
yielding nothing), and the cache is left unchanged — the stale value is served
rather than a failure. -/
theorem cacheGetDoc_stale_returned_on_fetch_failure (cache : DocsCache) (slug : JStr)
    (now : Int) (d : CachedDoc) (hcached : assocLookup slug cache = some d)
    (hstale : isExpired now d = true) :
    cacheGetDoc cache slug now none = (some d, cache) := by
  simp [cacheGetDoc, hcached, hstale]

/-- Witness for claim C7 at a concrete expired entry. -/
theorem cacheGetDoc_stale_returned_on_fetch_failure_witness :
    cacheGetDoc [(['x'], ⟨[], ['t'], none, 0, none, none, ['x'], 0⟩)] ['x'] 300001 none =
      (some ⟨[], ['t'], none, 0, none, none, ['x'], 0⟩,
        [(['x'], ⟨[], ['t'], none, 0, none, none, ['x'], 0⟩)]) :=
  cacheGetDoc_stale_returned_on_fetch_failure _ _ _ _ (by decide) (by decide)

/-- Counterexample to claim C4 as stated: for an input containing a CRLF line
break (and no frontmatter), the parser returns the line-ending-normalized
text, not the trimmed original text, as body. -/
theorem cacheParseFrontmatter_normalizes_body_cex :
    (cacheParseFrontmatter ['a', '\r', '\n', 'b']).2 = ['a', '\n', 'b'] ∧
    jsTrim ['a', '\r', '\n', 'b'] = ['a', '\r', '\n', 'b'] ∧
    (['a', '\n', 'b'] : JStr) ≠ ['a', '\r', '\n', 'b'] := by
  decide

/-- Claim C4 as amended: for every input that does not begin with the opening
delimiter on its own first line, and for every input whose opening delimiter
is never followed by a closing delimiter line, the cache's frontmatter parser
returns exactly the default metadata `{title: "Untitled", order: 0}` together
with the trimmed line-ending-normalized text as body, and never fails. -/
theorem cacheParseFrontmatter_fallback (content : JStr)
    (h : (splitChar '\n' (normalizeNl content) []).head? ≠ some sDashes ∨
      ((splitChar '\n' (normalizeNl content) []).drop 1).findIdx?
        (fun l => decide (jsTrim l = sDashes)) = none) :
    cacheParseFrontmatter content = (cacheDefaultMeta, jsTrim (normalizeNl content)) := by
  by_cases h4 : (normalizeNl content).take 4 = "---\n".data
  · have hhead : (splitChar '\n' (normalizeNl content) []).head? = some sDashes := by
      have hdec : normalizeNl content =
          '-' :: '-' :: '-' :: '\n' :: (normalizeNl content).drop 4 := by
        have := List.take_append_drop 4 (normalizeNl content)
        rw [h4] at this
        exact this.symm
      rw [hdec, splitChar_cons_ne (by decide) _ _, splitChar_cons_ne (by decide) _ _,
        splitChar_cons_ne (by decide) _ _, splitChar_cons_self]
      rfl
    rcases h with h | h
    · exact absurd hhead h
    · rw [cacheParseFrontmatter]
      simp only [h4, if_true, h]
  · rcases h with h | h <;>
      (rw [cacheParseFrontmatter]; simp only [h4, if_false])

/-- Witness for the amended claim C4 at a concrete delimiter-free input. -/
theorem cacheParseFrontmatter_fallback_witness :
    cacheParseFrontmatter "hello".data =
      (cacheDefaultMeta, jsTrim (normalizeNl "hello".data)) :=
  cacheParseFrontmatter_fallback "hello".data (Or.inl (by decide))

/-! ## Claim C1: one failing file never blanks the batch -/

/-- A file's processing succeeds exactly when its fetch delivers. -/
theorem processFile_isSome (basePath : JStr) (f : FileEntry) (r : Option JStr) :
    (processFile basePath f r).isSome = r.isSome := by
  cases r <;> rfl

/-- The length of a filterMap counts the successes. -/
theorem length_filterMap_eq_countP {α β : Type} (g : α → Option β) :
    ∀ (l : List α), (l.filterMap g).length = l.countP (fun a => (g a).isSome) := by
  intro l
  induction l with
  | nil => rfl
  | cons a t ih =>
      rw [List.filterMap_cons, List.countP_cons]
      cases hg : g a <;> simp [hg, ih]

/-- Successes and failures partition the files. -/
theorem countP_isSome_add_isNone {α β : Type} (g : α → Option β) :
    ∀ (l : List α),
      l.countP (fun a => (g a).isSome) + l.countP (fun a => (g a).isNone) = l.length := by
  intro l
  induction l with
  | nil => rfl
  | cons a t ih =>
      rw [List.countP_cons, List.countP_cons]
      cases hg : g a <;> simp [hg] <;> omega

/-- Claim C1: for a listed tree of N Markdown files in which exactly one
file's fetch or parse fails, `getAllDocs` still succeeds, returning and
caching the N-1 successfully processed documents; the failing file is skipped
and the batch is not aborted. -/
theorem getAllDocs_skips_failing_file (basePath : JStr) (cache : SvcCache)
    (files : List FileEntry) (fetch : FileEntry → Option JStr)
    (hone : files.countP (fun f => (fetch f).isNone) = 1) :
    ∃ docs, getAllDocs basePath cache (some files) fetch =
        (some (sortByKey docOrder docs), cacheOfDocs docs) ∧
      docs = files.filterMap (fun f => processFile basePath f (fetch f)) ∧
      docs.length + 1 = files.length ∧
      (sortByKey docOrder docs).length + 1 = files.length := by
  refine ⟨files.filterMap (fun f => processFile basePath f (fetch f)), rfl, rfl, ?_, ?_⟩
  · rw [length_filterMap_eq_countP]
    have hsplit := countP_isSome_add_isNone (fun f => fetch f) files
    have hsame : files.countP (fun f => (processFile basePath f (fetch f)).isSome) =
        files.countP (fun f => (fetch f).isSome) := by
      apply List.countP_congr
      intro f _
      rw [processFile_isSome]
    rw [hsame]
    omega
  · rw [sortByKey_length, length_filterMap_eq_countP]
    have hsplit := countP_isSome_add_isNone (fun f => fetch f) files
    have hsame : files.countP (fun f => (processFile basePath f (fetch f)).isSome) =
        files.countP (fun f => (fetch f).isSome) := by
      apply List.countP_congr
      intro f _
      rw [processFile_isSome]
    rw [hsame]
    omega

/-- Witness for claim C1: two listed files, one failing fetch. -/
theorem getAllDocs_skips_failing_file_witness :
    ∃ docs, getAllDocs "docs".data []
        (some [⟨"docs/a.md".data, "s1".data⟩, ⟨"docs/b.md".data, "s2".data⟩])
        (fun f => if f.path = "docs/a.md".data then none else some "hello".data) =
        (some (sortByKey docOrder docs), cacheOfDocs docs) ∧
      docs = [⟨"docs/a.md".data, "s1".data⟩,
        ⟨"docs/b.md".data, "s2".data⟩].filterMap
          (fun f => processFile "docs".data f
            (if f.path = "docs/a.md".data then none else some "hello".data)) ∧
      docs.length + 1 = 2 ∧ (sortByKey docOrder docs).length + 1 = 2 :=
  getAllDocs_skips_failing_file "docs".data []
    [⟨"docs/a.md".data, "s1".data⟩, ⟨"docs/b.md".data, "s2".data⟩]
    (fun f => if f.path = "docs/a.md".data then none else some "hello".data)
    (by decide)

/-! ## Claim C10: every cache key equals the slug of its document -/

/-- Setting a binding whose value carries its own key preserves the invariant. -/
theorem cacheInv_assocSet {c : SvcCache} {k : JStr} {d : DocContent}
    (hinv : CacheInv c) (hd : d.slug = k) : CacheInv (assocSet c k d) := by
  induction c with
  | nil =>
      intro p hp
      simp only [assocSet, List.mem_singleton] at hp
      subst hp
      exact hd
  | cons q rest ih =>
      obtain ⟨k', v'⟩ := q
      intro p hp
      by_cases hk : k' = k
      · subst hk
        simp only [assocSet, if_pos rfl] at hp
        rcases List.mem_cons.mp hp with rfl | hp2
        · exact hd
        · exact hinv p (List.mem_cons_of_mem _ hp2)
      · simp only [assocSet, if_neg hk] at hp
        rcases List.mem_cons.mp hp with rfl | hp2
        · exact hinv (k', v') (by simp)
        · exact ih (fun q hq => hinv q (List.mem_cons_of_mem _ hq)) p hp2

/-- Deleting a binding preserves the invariant. -/
theorem cacheInv_assocDelete {c : SvcCache} (k : JStr) (hinv : CacheInv c) :
    CacheInv (assocDelete k c) := by
  induction c with
  | nil => intro p hp; simp [assocDelete] at hp
  | cons q rest ih =>
      obtain ⟨k', v'⟩ := q
      intro p hp
      by_cases hk : k' = k
      · simp only [assocDelete, if_pos hk] at hp
        exact hinv p (List.mem_cons_of_mem _ hp)
      · simp only [assocDelete, if_neg hk] at hp
        rcases List.mem_cons.mp hp with rfl | hp2
        · exact hinv (k', v') (by simp)
        · exact ih (fun q hq => hinv q (List.mem_cons_of_mem _ hq)) p hp2

/-- A cache rebuilt from a document list satisfies the invariant. -/
theorem cacheInv_cacheOfDocs (docs : List DocContent) : CacheInv (cacheOfDocs docs) := by
  suffices h : ∀ (docs : List DocContent) (acc : SvcCache), CacheInv acc →
      CacheInv (docs.foldl (fun c d => assocSet c d.slug d) acc) by
    exact h docs [] (by intro p hp; simp at hp)
  intro docs
  induction docs with
  | nil => intro acc h; simpa using h
  | cons d ds ih =>
      intro acc h
      exact ih (assocSet acc d.slug d) (cacheInv_assocSet h rfl)

/-- Every service operation preserves the invariant. -/
theorem cacheInv_step {c c' : SvcCache} (hinv : CacheInv c) (hstep : SvcStep c c') :
    CacheInv c' := by
  cases hstep with
  | refresh basePath tree fetch _ =>
      cases tree with
      | none => exact hinv
      | some files => exact cacheInv_cacheOfDocs _
  | lookup initialized slug fetched _ =>
      rw [getDocBySlug.eq_def]
      cases hlk : assocLookup slug c with
      | some d => exact hinv
      | none =>
          cases initialized with
          | true => simpa using hinv
          | false =>
              cases fetched with
              | none => simpa using hinv
              | some raw =>
                  simp only [Bool.false_eq_true, if_false]
                  exact cacheInv_assocSet hinv rfl
  | create doc saveOk _ =>
      rw [createOrUpdateDoc]
      cases saveOk with
      | true => exact cacheInv_assocSet hinv rfl
      | false => exact hinv
  | erase path deleteOk _ =>
      rw [deleteDoc]
      cases deleteOk with
      | true => exact cacheInv_assocDelete _ hinv
      | false => exact hinv

/-- Claim C10: in every cache state reachable by any sequence of the service's
operations, every key of the cache map equals the slug of the document stored
under it. -/
theorem cache_keys_match_doc_slugs (c : SvcCache) (h : ReachableCache c) : CacheInv c := by
  induction h with
  | init => intro p hp; simp at hp
  | step _ hstep ih => exact cacheInv_step ih hstep

/-- Witness for claim C10: the state after one create/update on the empty
cache satisfies the invariant. -/
theorem cache_keys_match_doc_slugs_witness :
    CacheInv (createOrUpdateDoc [] ⟨[], ['x'], [], [], none⟩ true) :=
  cache_keys_match_doc_slugs _ (ReachableCache.step ReachableCache.init
    (SvcStep.create ⟨[], ['x'], [], [], none⟩ true []))

/-- Witness for claim C5 at a concrete metadata record and body. -/
theorem parse_createFrontmatter_roundtrip_witness :
    svcParseFrontmatter (createFrontmatter
        ⟨"Guide".data, some "Doc".data, some 2, none, some ["a".data, "b".data]⟩ ++
      "# Body".data) =
      (metaFields ⟨"Guide".data, some "Doc".data, some 2, none,
        some ["a".data, "b".data]⟩, "# Body".data) :=
  parse_createFrontmatter_roundtrip _ _ (by decide) (by decide)

/-! ## Claims C8 and C9: the navigation tree builder -/


/-- One grouping step, looked up at the key of the processed document. -/
theorem lookup_groupStep_self (acc : List (JStr × List ChildItem)) (d : SDoc) :
    assocLookup (groupKey d) (groupStep acc d) =
      some (if isTopLevel d then mkItem d :: (assocLookup (groupKey d) acc).getD []
        else (assocLookup (groupKey d) acc).getD [] ++ [mkItem d]) := by
  rw [groupStep]
  cases hlk : assocLookup (groupKey d) acc with
  | some l =>
      simp only [hlk, Option.isSome_some, if_true, Option.getD_some]
      cases isTopLevel d <;>
        simp [assocLookup_assocModify_self, hlk]
  | none =>
      simp only [hlk, Option.isSome_none, Bool.false_eq_true, if_false, Option.getD_none]
      have hap : assocLookup (groupKey d) (acc ++ [(groupKey d, [])]) = some [] := by
        rw [assocLookup_append, hlk]
        simp [assocLookup]
      cases isTopLevel d <;>
        simp [assocLookup_assocModify_self, hap]

/-- One grouping step, looked up at any other key. -/
theorem lookup_groupStep_ne {key : JStr} (acc : List (JStr × List ChildItem)) (d : SDoc)
    (hne : key ≠ groupKey d) :
    assocLookup key (groupStep acc d) = assocLookup key acc := by
  rw [groupStep]
  have hne2 : ¬groupKey d = key := fun hh => hne hh.symm
  have hmod : ∀ (f : List ChildItem → List ChildItem)
      (acc1 : List (JStr × List ChildItem)),
      assocLookup key (assocModify (groupKey d) f acc1) = assocLookup key acc1 :=
    fun f acc1 => assocLookup_assocModify_ne hne2 f acc1
  cases hlk : assocLookup (groupKey d) acc with
  | some l =>
      simp only [hlk, Option.isSome_some, if_true]
      cases isTopLevel d <;> simp [hmod]
  | none =>
      simp only [hlk, Option.isSome_none, Bool.false_eq_true, if_false]
      have hap : assocLookup key (acc ++ [(groupKey d, [])]) = assocLookup key acc := by
        rw [assocLookup_append]
        cases hk2 : assocLookup key acc <;> simp [assocLookup, hne2]
      cases isTopLevel d <;> simp [hmod, hap]

/-- The grouping fold, characterized by lookup: a group's items are the
accumulated additions of the matching documents. -/
theorem lookup_groupDocs_aux (key : JStr) :
    ∀ (ds : List SDoc) (acc : List (JStr × List ChildItem)),
      assocLookup key (ds.foldl groupStep acc) =
        match assocLookup key acc with
        | some l => some (addItems key ds l)
        | none =>
            if ds.any (fun d => decide (groupKey d = key)) then some (addItems key ds [])
            else none := by
  intro ds
  induction ds with
  | nil =>
      intro acc
      cases hlk : assocLookup key acc <;> simp [hlk, addItems]
  | cons d ds ih =>
      intro acc
      rw [List.foldl_cons, ih (groupStep acc d)]
      by_cases hkey : groupKey d = key
      · subst hkey
        rw [lookup_groupStep_self acc d]
        have ha : ∀ l0, addItems (groupKey d) (d :: ds) l0 =
            addItems (groupKey d) ds
              (if isTopLevel d then mkItem d :: l0 else l0 ++ [mkItem d]) := by
          intro l0
          rw [addItems, List.foldl_cons, addItems]
          simp
        cases hlk : assocLookup (groupKey d) acc with
        | some l => simp [hlk, ha l]
        | none =>
            have hany : ((d :: ds).any (fun d2 => decide (groupKey d2 = groupKey d))) =
                true := by
              simp
            simp [hlk, hany, ha []]
      · rw [lookup_groupStep_ne acc d (fun hh => hkey hh.symm)]
        cases hlk : assocLookup key acc with
        | some l =>
            have ha : addItems key (d :: ds) l = addItems key ds l := by
              rw [addItems, List.foldl_cons, addItems]
              simp [hkey]
            simp [hlk, ha]
        | none =>
            have hany : (d :: ds).any (fun d2 => decide (groupKey d2 = key)) =
                ds.any (fun d2 => decide (groupKey d2 = key)) := by
              simp [hkey]
            have ha : addItems key (d :: ds) [] = addItems key ds [] := by
              rw [addItems, List.foldl_cons, addItems]
              simp [hkey]
            simp [hlk, hany, ha]

/-- The accumulated item list: unshifted top-level items (in reverse encounter
order) in front, pushed children (in encounter order) behind. -/
theorem addItems_eq (key : JStr) :
    ∀ (ds : List SDoc) (l : List ChildItem),
      addItems key ds l = (topsItems key ds).reverse ++ l ++ childItems key ds := by
  intro ds
  induction ds with
  | nil => intro l; simp [addItems, topsItems, childItems]
  | cons d ds ih =>
      intro l
      rw [addItems, List.foldl_cons]
      by_cases hkey : groupKey d = key
      · by_cases htop : isTopLevel d = true
        · have hstep : (if groupKey d = key then
              (if isTopLevel d then mkItem d :: l else l ++ [mkItem d]) else l) =
              mkItem d :: l := by
            simp [hkey, htop]
          rw [hstep, show (ds.foldl (fun l d =>
              if groupKey d = key then
                (if isTopLevel d then mkItem d :: l else l ++ [mkItem d])
              else l) (mkItem d :: l)) = addItems key ds (mkItem d :: l) from rfl,
            ih (mkItem d :: l)]
          have ht : topsItems key (d :: ds) = mkItem d :: topsItems key ds := by
            rw [topsItems, List.filter_cons]
            simp [hkey, htop, topsItems]
          have hc : childItems key (d :: ds) = childItems key ds := by
            rw [childItems, List.filter_cons]
            simp [hkey, htop, childItems]
          rw [ht, hc]
          simp
        · have hstep : (if groupKey d = key then
              (if isTopLevel d then mkItem d :: l else l ++ [mkItem d]) else l) =
              l ++ [mkItem d] := by
            simp [hkey, htop]
          rw [hstep, show (ds.foldl (fun l d =>
              if groupKey d = key then
                (if isTopLevel d then mkItem d :: l else l ++ [mkItem d])
              else l) (l ++ [mkItem d])) = addItems key ds (l ++ [mkItem d]) from rfl,
            ih (l ++ [mkItem d])]
          have ht : topsItems key (d :: ds) = topsItems key ds := by
            rw [topsItems, List.filter_cons]
            simp [hkey, htop, topsItems]
          have hc : childItems key (d :: ds) = mkItem d :: childItems key ds := by
            rw [childItems, List.filter_cons]
            simp [hkey, htop, childItems]
          rw [ht, hc]
          simp
      · have hstep : (if groupKey d = key then
            (if isTopLevel d then mkItem d :: l else l ++ [mkItem d]) else l) = l := by
          simp [hkey]
        rw [hstep, show (ds.foldl (fun l d =>
            if groupKey d = key then
              (if isTopLevel d then mkItem d :: l else l ++ [mkItem d])
            else l) l) = addItems key ds l from rfl, ih l]
        have ht : topsItems key (d :: ds) = topsItems key ds := by
          rw [topsItems, List.filter_cons]
          simp [hkey, topsItems]
        have hc : childItems key (d :: ds) = childItems key ds := by
          rw [childItems, List.filter_cons]
          simp [hkey, childItems]
        rw [ht, hc]

/-- The group key (first path segment) contains no slash. -/
theorem no_slash_groupKey (d : SDoc) : '/' ∉ groupKey d := by
  rw [groupKey]
  cases hsp : splitChar '/' d.slug [] with
  | nil => exact absurd hsp (splitChar_ne_nil _ _)
  | cons s rest =>
      exact splitChar_parts_clean (List.not_mem_nil '/') s (by rw [hsp]; simp)

/-- A document is top-level exactly when its slug contains no slash. -/
theorem isTopLevel_iff {d : SDoc} : isTopLevel d = true ↔ '/' ∉ d.slug := by
  constructor
  · intro h
    rw [isTopLevel] at h
    simp only [decide_eq_true_eq] at h
    obtain ⟨x, hx⟩ : ∃ x, splitChar '/' d.slug [] = [x] := by
      cases hsp : splitChar '/' d.slug [] with
      | nil => exact absurd hsp (splitChar_ne_nil _ _)
      | cons s rest =>
          rw [hsp] at h
          simp only [List.length_cons] at h
          have : rest = [] := List.length_eq_zero.mp (by omega)
          exact ⟨s, by rw [this]⟩
    exact (splitChar_singleton hx).2
  · intro h
    rw [isTopLevel, splitChar_clean h]
    simp

/-- A top-level document's group key is its own slug. -/
theorem groupKey_of_topLevel {d : SDoc} (h : isTopLevel d = true) : groupKey d = d.slug := by
  have hns := isTopLevel_iff.mp h
  rw [groupKey, splitChar_clean hns]
  simp

/-- In a slug-distinct list, a filter whose predicate pins the slug catches
exactly one given member. -/
theorem pairwise_filter_eq_singleton {l : List SDoc} {q : SDoc → Bool} {x : SDoc}
    (hp : l.Pairwise (fun a b => a.slug ≠ b.slug)) (hx : x ∈ l) (hqx : q x = true)
    (himp : ∀ y, q y = true → y.slug = x.slug) : l.filter q = [x] := by
  induction l with
  | nil => simp at hx
  | cons a t ih =>
      rw [List.pairwise_cons] at hp
      rw [List.filter_cons]
      by_cases hqa : q a = true
      · have hax : a.slug = x.slug := himp a hqa
        have hat : x = a := by
          rcases List.mem_cons.mp hx with rfl | hxt
          · rfl
          · exact absurd hax (hp.1 x hxt)
        subst hat
        have ht : t.filter q = [] := by
          rw [List.filter_eq_nil_iff]
          intro y hy hqy
          exact hp.1 y hy (himp y hqy).symm
        simp [hqa, ht]
      · have hxt : x ∈ t := by
          rcases List.mem_cons.mp hx with rfl | hxt
          · exact absurd hqx hqa
          · exact hxt
        simp only [hqa, Bool.false_eq_true, if_false]
        exact ih hp.2 hxt


/-- For a slash-free key, "non-top-level group member" and "group member whose
slug is not the key" are the same test. -/
theorem filter_pred_eq {key : JStr} (hkey : '/' ∉ key) (d : SDoc) :
    (decide (groupKey d = key) && !isTopLevel d) =
    (decide (groupKey d = key) && decide (d.slug ≠ key)) := by
  by_cases hg : groupKey d = key
  · simp only [hg, decide_True, Bool.true_and]
    by_cases htop : isTopLevel d = true
    · have hslug : d.slug = key := by rw [← hg, groupKey_of_topLevel htop]
      simp [htop, hslug]
    · have h2 : '/' ∈ d.slug := by
        by_contra hns
        exact htop (isTopLevel_iff.mpr hns)
      have h3 : d.slug ≠ key := fun hh => hkey (hh ▸ h2)
      rw [Bool.not_eq_true] at htop
      simp [htop, h3]
  · simp [hg]

/-- Claim C8: within each group of the filtered document set, the document
whose slug equals the group key becomes the parent node; the other group
members become its children sorted by ascending `order`; children with equal
`order` appear in encounter order.  Slugs are assumed pairwise distinct (the
documented invariant of a repository snapshot). -/
theorem buildTree_parent_and_sorted_children (docs : List SDoc) (sect : JStr) (p : SDoc)
    (hdist : (sectionDocs docs sect).Pairwise (fun a b => a.slug ≠ b.slug))
    (hp : p ∈ sectionDocs docs sect) (htop : '/' ∉ p.slug) :
    ∃ node, node ∈ buildTreeFromDocs docs sect ∧
      node.title = p.title ∧ node.slug = p.slug ∧ node.order = p.order.getD 0 ∧
      node.icon = p.icon ∧
      nodeChildren node = sortByKey ChildItem.order (encChildren docs sect p.slug) ∧
      (nodeChildren node).Pairwise (fun a b => a.order ≤ b.order) ∧
      (∀ v : Int, (nodeChildren node).filter (fun a => decide (a.order = v)) =
        (encChildren docs sect p.slug).filter (fun a => decide (a.order = v))) ∧
      (nodeChildren node).Perm (encChildren docs sect p.slug) := by
  have hptop : isTopLevel p = true := isTopLevel_iff.mpr htop
  have hpk : groupKey p = p.slug := groupKey_of_topLevel hptop
  have htops : topsItems p.slug (sectionDocs docs sect) = [mkItem p] := by
    rw [topsItems, pairwise_filter_eq_singleton hdist hp (by simp [hpk, hptop]) ?_]
    · simp
    · intro y hy
      simp only [Bool.and_eq_true, decide_eq_true_eq] at hy
      rw [← hy.1, groupKey_of_topLevel hy.2]
  have hchild : childItems p.slug (sectionDocs docs sect) = encChildren docs sect p.slug := by
    rw [childItems, encChildren, List.filter_congr (fun d _ => filter_pred_eq htop d)]
  have hlk : assocLookup p.slug (groupDocs (sectionDocs docs sect)) =
      some (mkItem p :: encChildren docs sect p.slug) := by
    rw [groupDocs, lookup_groupDocs_aux]
    have hlknil : assocLookup p.slug ([] : List (JStr × List ChildItem)) = none := rfl
    rw [hlknil]
    have hany : (sectionDocs docs sect).any (fun d => decide (groupKey d = p.slug)) = true :=
      List.any_eq_true.mpr ⟨p, hp, by simp [hpk]⟩
    rw [hany, if_pos rfl, addItems_eq, htops, hchild]
    simp
  have hmem := assocLookup_some_mem hlk
  have hencslug : ∀ it ∈ encChildren docs sect p.slug, it.slug ≠ p.slug := by
    intro it hit
    rw [encChildren] at hit
    obtain ⟨d, hd, rfl⟩ := List.mem_map.mp hit
    have hflt := (List.mem_filter.mp hd).2
    simp only [Bool.and_eq_true, decide_eq_true_eq] at hflt
    exact hflt.2
  have hbuild : buildGroupNode p.slug (mkItem p :: encChildren docs sect p.slug) =
      some ⟨p.title, p.slug, p.order.getD 0, p.icon,
        if sortByKey ChildItem.order (encChildren docs sect p.slug) ≠ [] then
          some (sortByKey ChildItem.order (encChildren docs sect p.slug)) else none⟩ := by
    rw [buildGroupNode]
    have hfind : (mkItem p :: encChildren docs sect p.slug).find?
        (fun it => decide (it.slug = p.slug)) = some (mkItem p) :=
      List.find?_cons_of_pos _ (by simp [mkItem])
    have hfilter : (mkItem p :: encChildren docs sect p.slug).filter
        (fun it => decide (it.slug ≠ p.slug)) = encChildren docs sect p.slug := by
      rw [List.filter_cons]
      have hhead : (decide ((mkItem p).slug ≠ p.slug)) = false := by simp [mkItem]
      rw [hhead]
      simp only [Bool.false_eq_true, if_false]
      exact List.filter_eq_self.mpr (fun it hit => by simp [hencslug it hit])
    rw [hfind, hfilter]
    rfl
  have hsdne : ¬((sectionDocs docs sect).length = 0) := by
    intro hh
    rw [List.length_eq_zero] at hh
    rw [hh] at hp
    simp at hp
  have hnodemem : (⟨p.title, p.slug, p.order.getD 0, p.icon,
      if sortByKey ChildItem.order (encChildren docs sect p.slug) ≠ [] then
        some (sortByKey ChildItem.order (encChildren docs sect p.slug)) else none⟩ :
      TreeNode) ∈ buildTreeFromDocs docs sect := by
    rw [buildTreeFromDocs]
    simp only [if_neg hsdne]
    exact mem_sortByKey.mpr (List.mem_filterMap.mpr
      ⟨(p.slug, mkItem p :: encChildren docs sect p.slug), hmem, hbuild⟩)
  refine ⟨_, hnodemem, rfl, rfl, rfl, rfl, ?_, ?_, ?_, ?_⟩
  · rw [nodeChildren]
    by_cases hcs : sortByKey ChildItem.order (encChildren docs sect p.slug) = []
    · simp [hcs]
    · simp [hcs]
  · have hnc : nodeChildren (⟨p.title, p.slug, p.order.getD 0, p.icon,
        if sortByKey ChildItem.order (encChildren docs sect p.slug) ≠ [] then
          some (sortByKey ChildItem.order (encChildren docs sect p.slug)) else none⟩ :
        TreeNode) = sortByKey ChildItem.order (encChildren docs sect p.slug) := by
      rw [nodeChildren]
      by_cases hcs : sortByKey ChildItem.order (encChildren docs sect p.slug) = []
      · simp [hcs]
      · simp [hcs]
    rw [hnc]
    exact sortByKey_sorted _ _
  · intro v
    have hnc : nodeChildren (⟨p.title, p.slug, p.order.getD 0, p.icon,
        if sortByKey ChildItem.order (encChildren docs sect p.slug) ≠ [] then
          some (sortByKey ChildItem.order (encChildren docs sect p.slug)) else none⟩ :
        TreeNode) = sortByKey ChildItem.order (encChildren docs sect p.slug) := by
      rw [nodeChildren]
      by_cases hcs : sortByKey ChildItem.order (encChildren docs sect p.slug) = []
      · simp [hcs]
      · simp [hcs]
    rw [hnc]
    exact sortByKey_filter _ _ v
  · have hnc : nodeChildren (⟨p.title, p.slug, p.order.getD 0, p.icon,
        if sortByKey ChildItem.order (encChildren docs sect p.slug) ≠ [] then
          some (sortByKey ChildItem.order (encChildren docs sect p.slug)) else none⟩ :
        TreeNode) = sortByKey ChildItem.order (encChildren docs sect p.slug) := by
      rw [nodeChildren]
      by_cases hcs : sortByKey ChildItem.order (encChildren docs sect p.slug) = []
      · simp [hcs]
      · simp [hcs]
    rw [hnc]
    exact sortByKey_perm _ _

/-- Claim C9 counterexample: for the group key "getting-started" the builder
synthesizes the title "Getting started" — only the first character is
upper-cased — while the claimed per-segment title-casing gives
"Getting Started". -/
theorem buildTree_synth_title_not_titlecased :
    (buildTreeFromDocs [⟨"Install".data, "getting-started/install".data, some 5, none⟩]
        "products".data).map TreeNode.title = ["Getting started".data] ∧
    claimedTitleCase "getting-started".data = "Getting Started".data ∧
    "Getting started".data ≠ "Getting Started".data := by
  refine ⟨?_, rfl, by decide⟩
  rfl

/-- Claim C9 as amended: for every path-prefix group in which no document's
slug equals the group key, the builder synthesizes a parent node whose title is
the group key with its first character upper-cased and the remaining hyphens
replaced by spaces, whose slug is the key, whose icon is absent, whose children
are the group members sorted by ascending `order`, and whose order equals the
first (sorted) child's order. -/
theorem buildTree_synthesized_parent (docs : List SDoc) (sect key : JStr) (d0 : SDoc)
    (hd0 : d0 ∈ sectionDocs docs sect) (hk0 : groupKey d0 = key)
    (hnop : ∀ d ∈ sectionDocs docs sect, d.slug ≠ key) :
    ∃ node, node ∈ buildTreeFromDocs docs sect ∧
      node.title = synthTitle key ∧ node.slug = key ∧ node.icon = none ∧
      nodeChildren node = sortByKey ChildItem.order (encChildren docs sect key) ∧
      ∃ fc rest, nodeChildren node = fc :: rest ∧ node.order = fc.order := by
  have hkeyns : '/' ∉ key := hk0 ▸ no_slash_groupKey d0
  have htops : topsItems key (sectionDocs docs sect) = [] := by
    rw [topsItems, List.filter_eq_nil_iff.mpr, List.map_nil]
    intro d hd hpred
    simp only [Bool.and_eq_true, decide_eq_true_eq] at hpred
    exact hnop d hd (by rw [← groupKey_of_topLevel hpred.2, hpred.1])
  have hchild : childItems key (sectionDocs docs sect) = encChildren docs sect key := by
    rw [childItems, encChildren, List.filter_congr (fun d _ => filter_pred_eq hkeyns d)]
  have hlk : assocLookup key (groupDocs (sectionDocs docs sect)) =
      some (encChildren docs sect key) := by
    rw [groupDocs, lookup_groupDocs_aux]
    have hlknil : assocLookup key ([] : List (JStr × List ChildItem)) = none := rfl
    rw [hlknil]
    have hany : (sectionDocs docs sect).any (fun d => decide (groupKey d = key)) = true :=
      List.any_eq_true.mpr ⟨d0, hd0, by simp [hk0]⟩
    rw [hany, if_pos rfl, addItems_eq, htops, hchild]
    simp
  have hmem := assocLookup_some_mem hlk
  have hencslug : ∀ it ∈ encChildren docs sect key, it.slug ≠ key := by
    intro it hit
    rw [encChildren] at hit
    obtain ⟨d, hd, rfl⟩ := List.mem_map.mp hit
    have hflt := (List.mem_filter.mp hd).2
    simp only [Bool.and_eq_true, decide_eq_true_eq] at hflt
    exact hflt.2
  have hd0mem : mkItem d0 ∈ encChildren docs sect key := by
    rw [encChildren]
    exact List.mem_map_of_mem mkItem
      (List.mem_filter.mpr ⟨hd0, by simp [hk0, hnop d0 hd0]⟩)
  have hcs_ne : sortByKey ChildItem.order (encChildren docs sect key) ≠ [] := by
    intro hh
    have hperm := sortByKey_perm ChildItem.order (encChildren docs sect key)
    rw [hh] at hperm
    rw [hperm.symm.eq_nil] at hd0mem
    simp at hd0mem
  obtain ⟨fc, rest, hcseq⟩ : ∃ fc rest,
      sortByKey ChildItem.order (encChildren docs sect key) = fc :: rest := by
    cases hc : sortByKey ChildItem.order (encChildren docs sect key) with
    | nil => exact absurd hc hcs_ne
    | cons a b => exact ⟨a, b, rfl⟩
  have hbuild : buildGroupNode key (encChildren docs sect key) =
      some ⟨synthTitle key, key, fc.order, none,
        some (sortByKey ChildItem.order (encChildren docs sect key))⟩ := by
    rw [buildGroupNode]
    have hfind : (encChildren docs sect key).find? (fun it => decide (it.slug = key)) =
        none :=
      List.find?_eq_none.mpr (fun it hit => by simp [hencslug it hit])
    have hfilter : (encChildren docs sect key).filter (fun it => decide (it.slug ≠ key)) =
        encChildren docs sect key :=
      List.filter_eq_self.mpr (fun it hit => by simp [hencslug it hit])
    rw [hfind, hfilter]
    simp only [hcseq]
  have hsdne : ¬((sectionDocs docs sect).length = 0) := by
    intro hh
    rw [List.length_eq_zero] at hh
    rw [hh] at hd0
    simp at hd0
  refine ⟨⟨synthTitle key, key, fc.order, none,
      some (sortByKey ChildItem.order (encChildren docs sect key))⟩, ?_, rfl, rfl, rfl, rfl,
      fc, rest, ?_, rfl⟩
  · rw [buildTreeFromDocs]
    simp only [if_neg hsdne]
    exact mem_sortByKey.mpr (List.mem_filterMap.mpr ⟨(key, encChildren docs sect key), hmem, hbuild⟩)
  · rw [nodeChildren]
    exact hcseq

/-- Concrete instance of the amended claim C9 on a one-document repository. -/
theorem buildTree_synthesized_parent_witness :
    ∃ node, node ∈ buildTreeFromDocs
        [⟨"Install".data, "getting-started/install".data, some 5, none⟩] "products".data ∧
      node.title = synthTitle "getting-started".data ∧
      node.slug = "getting-started".data ∧ node.icon = none ∧
      nodeChildren node = sortByKey ChildItem.order
        (encChildren [⟨"Install".data, "getting-started/install".data, some 5, none⟩]
          "products".data "getting-started".data) ∧
      ∃ fc rest, nodeChildren node = fc :: rest ∧ node.order = fc.order :=
  buildTree_synthesized_parent
    [⟨"Install".data, "getting-started/install".data, some 5, none⟩] "products".data
    "getting-started".data ⟨"Install".data, "getting-started/install".data, some 5, none⟩
    (by decide) (by decide) (by decide)

/-- Concrete instance of claim C8: a "guides" group with a matching parent and
two children, the children sorted by ascending order. -/
theorem buildTree_parent_and_sorted_children_witness :
    ∃ node, node ∈ buildTreeFromDocs
        [⟨"Guides".data, "guides".data, some 1, none⟩,
         ⟨"Setup".data, "guides/setup".data, some 2, none⟩,
         ⟨"Advanced".data, "guides/advanced".data, some 1, none⟩] "products".data ∧
      node.title = "Guides".data ∧ node.slug = "guides".data ∧ node.order = 1 ∧
      node.icon = none ∧
      nodeChildren node = sortByKey ChildItem.order
        (encChildren
          [⟨"Guides".data, "guides".data, some 1, none⟩,
           ⟨"Setup".data, "guides/setup".data, some 2, none⟩,
           ⟨"Advanced".data, "guides/advanced".data, some 1, none⟩]
          "products".data "guides".data) ∧
      (nodeChildren node).Pairwise (fun a b => a.order ≤ b.order) ∧
      (∀ v : Int, (nodeChildren node).filter (fun a => decide (a.order = v)) =
        (encChildren
          [⟨"Guides".data, "guides".data, some 1, none⟩,
           ⟨"Setup".data, "guides/setup".data, some 2, none⟩,
           ⟨"Advanced".data, "guides/advanced".data, some 1, none⟩]
          "products".data "guides".data).filter (fun a => decide (a.order = v))) ∧
      (nodeChildren node).Perm
        (encChildren
          [⟨"Guides".data, "guides".data, some 1, none⟩,
           ⟨"Setup".data, "guides/setup".data, some 2, none⟩,
           ⟨"Advanced".data, "guides/advanced".data, some 1, none⟩]
          "products".data "guides".data) :=
  buildTree_parent_and_sorted_children
    [⟨"Guides".data, "guides".data, some 1, none⟩,
     ⟨"Setup".data, "guides/setup".data, some 2, none⟩,
     ⟨"Advanced".data, "guides/advanced".data, some 1, none⟩] "products".data
    ⟨"Guides".data, "guides".data, some 1, none⟩
    (by decide) (by decide) (by decide)
